import Mathlib

/-!
Verification of the TrackerHacker cross-column consistency engine.

This file gives a shallow embedding of the string-rewriting core of the
repository (`tracker_hacker/utils.py` and `tracker_hacker/modifications.py`)
and proves or refutes the frozen specification claims about it.

Modelling conventions:
* Python strings are `List Char` internally (wrapped as `String` at the API
  boundary); machine text is ASCII in this code base.
* Python regular-expression operations are embedded as deterministic
  character scanners that reproduce the exact leftmost/greedy/lazy matching
  behaviour of the concrete patterns used by the source (documented at each
  definition).
* `re` word characters (`\w`) are ASCII letters, digits and underscore;
  whitespace (`\s`) is the ASCII whitespace set.
* JSON encode/decode of the `Filters` column is modelled structurally: a
  column value is either a successfully parsed list, a successfully parsed
  non-list, or an unparseable raw string; `json.dumps` of a parsed list is
  the parsed list itself.  A blank raw string is identified with the parsed
  empty list (the code treats both as `[]`).
* pandas `NaN` cells are not modelled: all columns are total strings, which
  matches every claim under analysis (none hinges on missing cells).
-/

namespace TrackerHacker

/-! ## Character classes (ASCII view of Python `re`) -/

/-- ASCII whitespace, the characters matched by Python `\s` on ASCII text. -/
def isWs (c : Char) : Bool :=
  c == ' ' || c == '\t' || c == '\n' || c == '\r' || c == '\x0b' || c == '\x0c'

/-- ASCII word character, Python `\w`: letters, digits, underscore. -/
def isWordChar (c : Char) : Bool :=
  c.isAlpha || c.isDigit || c == '_'

/-- Word-boundary test between two optional neighbouring characters
(`none` = outside the string, which counts as a non-word position). -/
def isBdry (a b : Option Char) : Bool :=
  (match a with | none => false | some c => isWordChar c)
    != (match b with | none => false | some c => isWordChar c)

/-! ## Basic list-of-characters utilities -/

/-- Python `str.strip()` (both ends, ASCII whitespace). -/
def pyStripL (cs : List Char) : List Char :=
  ((cs.dropWhile isWs).reverse.dropWhile isWs).reverse

/-- Python `str.rstrip()`. -/
def pyRstripL (cs : List Char) : List Char :=
  (cs.reverse.dropWhile isWs).reverse

/-- Python `str.split(sep)` for a one-character separator: keeps empty pieces,
never returns an empty list. -/
def splitOnCharL (sep : Char) : List Char → List (List Char)
  | [] => [[]]
  | c :: cs =>
    if c == sep then
      [] :: splitOnCharL sep cs
    else
      match splitOnCharL sep cs with
      | [] => [[c]]
      | p :: ps => (c :: p) :: ps

/-- Python `sep.join(pieces)` for list pieces. -/
def joinWithL (sep : List Char) : List (List Char) → List Char
  | [] => []
  | [p] => p
  | p :: ps => p ++ sep ++ joinWithL sep ps

/-- Python `' '.join(tokens)`. -/
def interSpace : List (List Char) → List Char
  | [] => []
  | [t] => t
  | t :: ts => t ++ ' ' :: interSpace ts

/-- Comma items exactly as the source computes them:
`[item.strip() for item in s.split(',') if item.strip()]`. -/
def commaItemsL (cs : List Char) : List (List Char) :=
  ((splitOnCharL ',' cs).map pyStripL).filter (fun i => !i.isEmpty)

/-- Python `item.split(sep, 1)`: split at the first separator occurrence;
returns the left part and, when the separator occurs, the right part. -/
def splitFirstAt (sep : Char) : List Char → List Char × Option (List Char)
  | [] => ([], none)
  | c :: cs =>
    if c == sep then ([], some cs)
    else
      let r := splitFirstAt sep cs
      (c :: r.1, r.2)

/-- Case-insensitive character comparison (ASCII upper-casing, as Python
`re.IGNORECASE` behaves on ASCII). -/
def ciEqCh (a b : Char) : Bool := a.toUpper == b.toUpper

/-- Whether `pat` is a prefix of `cs` under comparison `cmp`; on success
returns the remainder of `cs`. -/
def matchPre (cmp : Char → Char → Bool) : List Char → List Char → Option (List Char)
  | [], cs => some cs
  | _ :: _, [] => none
  | p :: ps, c :: cs => if cmp p c then matchPre cmp ps cs else none

/-- Count occurrences of a character. -/
def countCh (c : Char) (cs : List Char) : Nat :=
  (cs.filter (fun d => d == c)).length

/-- Replace every maximal ASCII-whitespace run by a single blank:
Python `re.sub(r'\s+', ' ', s)`.  The boolean state records whether the
previous character was whitespace (run already emitted). -/
def wsCollapseAux : Bool → List Char → List Char
  | _, [] => []
  | inRun, c :: cs =>
    if isWs c then
      if inRun then wsCollapseAux true cs else ' ' :: wsCollapseAux true cs
    else
      c :: wsCollapseAux false cs

def wsCollapse (cs : List Char) : List Char := wsCollapseAux false cs

/-- Delete every whitespace run that immediately follows the trigger
character.  With trigger `'('` this is Python `re.sub(r'\(\s*', '(', s)`.
The boolean state means "currently deleting whitespace after a trigger". -/
def delWsAfterAux (trig : Char) : Bool → List Char → List Char
  | _, [] => []
  | dropMode, c :: cs =>
    if dropMode && isWs c then delWsAfterAux trig true cs
    else c :: delWsAfterAux trig (c == trig) cs

def delWsAfter (trig : Char) (cs : List Char) : List Char :=
  delWsAfterAux trig false cs

/-- Delete every whitespace run that immediately precedes the trigger
character.  With trigger `')'` this is Python `re.sub(r'\s*\)', ')', s)`.
`pend` holds the pending (reversed) whitespace run. -/
def delWsBeforeAux (trig : Char) (pend : List Char) : List Char → List Char
  | [] => pend.reverse
  | c :: cs =>
    if isWs c then delWsBeforeAux trig (c :: pend) cs
    else if c == trig then c :: delWsBeforeAux trig [] cs
    else pend.reverse ++ c :: delWsBeforeAux trig [] cs

def delWsBefore (trig : Char) (cs : List Char) : List Char :=
  delWsBeforeAux trig [] cs

/-! ## Decimal rendering and reading -/

/-- Decimal digit character for a value below ten. -/
def digCh (d : Nat) : Char :=
  if d = 0 then '0' else if d = 1 then '1' else if d = 2 then '2'
  else if d = 3 then '3' else if d = 4 then '4' else if d = 5 then '5'
  else if d = 6 then '6' else if d = 7 then '7' else if d = 8 then '8'
  else '9'

/-- Least-significant-first decimal digits, with fuel for termination. -/
def ntdRev (fuel : Nat) (n : Nat) : List Char :=
  match fuel with
  | 0 => []
  | f + 1 => if n < 10 then [digCh n] else digCh (n % 10) :: ntdRev f (n / 10)

/-- Canonical decimal rendering of a natural number, Python `str(n)`. -/
def natToDigits (n : Nat) : List Char := (ntdRev (n + 1) n).reverse

/-- Python `str(i)` for an integer (removed-position arithmetic is integer
arithmetic in the source, so a negative difference renders with a sign). -/
def intToChars (i : Int) : List Char :=
  if i < 0 then '-' :: natToDigits i.natAbs else natToDigits i.toNat

/-- Numeric value of one ASCII digit character. -/
def digVal (c : Char) : Nat := c.toNat - 48

/-- Python `int(t)` for a string of ASCII digits. -/
def natOfDigits (cs : List Char) : Nat :=
  cs.foldl (fun a c => 10 * a + digVal c) 0

/-- Python `t.isdigit()` on ASCII text: nonempty and all digits. -/
def isDigitStr (cs : List Char) : Bool :=
  !cs.isEmpty && cs.all Char.isDigit

/-! ## Sorting and deduplication of strings (Python `sorted(set(...))`) -/

/-- Code-point lexicographic order on character lists (Python `str` order). -/
def lexLe : List Char → List Char → Bool
  | [], _ => true
  | _ :: _, [] => false
  | a :: as', b :: bs =>
    if a.toNat < b.toNat then true
    else if a.toNat > b.toNat then false
    else lexLe as' bs

def insertLex (a : List Char) : List (List Char) → List (List Char)
  | [] => [a]
  | b :: bs => if lexLe a b then a :: b :: bs else b :: insertLex a bs

def sortLex : List (List Char) → List (List Char)
  | [] => []
  | a :: as' => insertLex a (sortLex as')

/-- Keep the first occurrence of each element. -/
def dedupFirst : List (List Char) → List (List Char)
  | [] => []
  | a :: as' => if (dedupFirst as').contains a then dedupFirst as' else a :: dedupFirst as'

/-- Python `sorted(set(xs))` for strings. -/
def sortedDedup (xs : List (List Char)) : List (List Char) :=
  sortLex (dedupFirst xs)

/-- Insertion sort of digit strings by integer value, for
Python `sorted(set(digits), key=int)`. -/
def insertByVal (a : List Char) : List (List Char) → List (List Char)
  | [] => [a]
  | b :: bs =>
    if natOfDigits a ≤ natOfDigits b then a :: b :: bs else b :: insertByVal a bs

def sortByVal : List (List Char) → List (List Char)
  | [] => []
  | a :: as' => insertByVal a (sortByVal as')

/-! ## The boolean-logic mini-language rewriter (`utils.update_logic`) -/

/-- Tokenizer for `re.split(r'(\bAND\b|\bOR\b|\(|\)|\b\d+\b)', logic_str)`:
produces the interleaved list of non-matching chunks and matched tokens,
exactly as `re.split` with one capture group does (empty chunks included).
`prev` is the character preceding the scan position (for `\b`), `cur` the
reversed pending chunk.  `fuel` bounds recursion; callers pass the input
length plus one, which always suffices since every step consumes input. -/
def logicSplitAux (fuel : Nat) (prev : Option Char) (cur : List Char) :
    List Char → List (List Char)
  | [] => [cur.reverse]
  | c :: rest =>
    match fuel with
    | 0 => [(cur.reverse) ++ c :: rest]
    | f + 1 =>
      let prevNonWord : Bool := !(match prev with | none => false | some p => isWordChar p)
      if c = 'A' ∧ rest.take 2 = ['N', 'D'] ∧ prevNonWord
          ∧ !(match (rest.drop 2).head? with | none => false | some d => isWordChar d) then
        cur.reverse :: ['A', 'N', 'D'] :: logicSplitAux f (some 'D') [] (rest.drop 2)
      else if c = 'O' ∧ rest.take 1 = ['R'] ∧ prevNonWord
          ∧ !(match (rest.drop 1).head? with | none => false | some d => isWordChar d) then
        cur.reverse :: ['O', 'R'] :: logicSplitAux f (some 'R') [] (rest.drop 1)
      else if c = '(' ∨ c = ')' then
        cur.reverse :: [c] :: logicSplitAux f (some c) [] rest
      else if c.isDigit ∧ prevNonWord
          ∧ !(match (rest.dropWhile Char.isDigit).head? with
              | none => false | some d => isWordChar d) then
        let run := c :: rest.takeWhile Char.isDigit
        cur.reverse :: run :: logicSplitAux f (some (run.getLastD c)) [] (rest.dropWhile Char.isDigit)
      else
        logicSplitAux f (some c) (c :: cur) rest

/-- Token stream of a logic string under the source's split pattern. -/
def logicSplit (cs : List Char) : List (List Char) :=
  logicSplitAux (cs.length + 1) none [] cs

/-- Per-token processing step of `update_logic` (the first `for` loop):
a digit token is dropped when its position is removed and renumbered
otherwise; `AND`/`OR` (any case, after stripping) and parentheses are
upper-cased and kept; everything else is dropped. -/
def procTok (removed : List Nat) (tok : List Char) : Option (List Char) :=
  let t := pyStripL tok
  if isDigitStr t then
    let pos := natOfDigits t
    if removed.contains pos then none
    else some (intToChars ((pos : Int) - ((removed.filter (fun r => r < pos)).length : Int)))
  else
    let up := t.map Char.toUpper
    if up = ['A', 'N', 'D'] ∨ up = ['O', 'R'] ∨ t = ['('] ∨ t = [')'] then some up
    else none

/-- Collapse consecutive duplicate boolean operators (second loop). -/
def collapseOps : Option (List Char) → List (List Char) → List (List Char)
  | _, [] => []
  | prev, t :: ts =>
    if some t = prev ∧ (t = ['A', 'N', 'D'] ∨ t = ['O', 'R']) then
      collapseOps prev ts
    else
      t :: collapseOps (some t) ts

/-- Strip one trailing boolean operator:
`re.sub(r'\b(AND|OR)\s*$', '', s, flags=re.IGNORECASE)`.
Characterised on the reversed string: optional trailing whitespace, then the
operator (case-insensitive), with a word boundary before the operator. -/
def stripTrailOpLogic (cs : List Char) : List Char :=
  let r := cs.reverse
  let r1 := r.dropWhile isWs
  if (r1.take 3).map Char.toUpper = ['D', 'N', 'A'] then
    let rest := r1.drop 3
    if (match rest.head? with | none => true | some d => !isWordChar d) then rest.reverse
    else cs
  else if (r1.take 2).map Char.toUpper = ['R', 'O'] then
    let rest := r1.drop 2
    if (match rest.head? with | none => true | some d => !isWordChar d) then rest.reverse
    else cs
  else cs

/-- Strip one leading boolean operator:
`re.sub(r'^\s*(AND|OR)\s+', '', s, flags=re.IGNORECASE)`.
Leading whitespace, the operator (case-insensitive), then at least one
whitespace character (the greedy `\s+` removes the whole run). -/
def stripLeadOpLogic (cs : List Char) : List Char :=
  let t := cs.dropWhile isWs
  if (t.take 3).map Char.toUpper = ['A', 'N', 'D'] then
    let rest := t.drop 3
    if (match rest.head? with | none => false | some d => isWs d) then rest.dropWhile isWs
    else cs
  else if (t.take 2).map Char.toUpper = ['O', 'R'] then
    let rest := t.drop 2
    if (match rest.head? with | none => false | some d => isWs d) then rest.dropWhile isWs
    else cs
  else cs

/-- Final textual assembly of `update_logic` (join, tighten parentheses,
strip dangling operators, strip). -/
def assembleLogic (ts : List (List Char)) : List Char :=
  pyStripL (stripLeadOpLogic (stripTrailOpLogic
    (delWsBefore ')' (delWsAfter '(' (interSpace ts)))))

/-- Body of `utils.update_logic` on a token stream: process tokens, collapse
duplicate operators, then either return the single surviving distinct digit
or reassemble the text. -/
def updateLogicCore (tokens : List (List Char)) (removed_positions : List Nat) : List Char :=
  let new_tokens := tokens.filterMap (procTok removed_positions)
  let collapsed := collapseOps none new_tokens
  let digits := collapsed.filter isDigitStr
  let unique_digits := sortByVal (dedupFirst digits)
  if unique_digits.length = 1 then unique_digits.headD [] else assembleLogic collapsed

/-- Embedding of `utils.update_logic`. -/
def update_logic (logic_str : String) (removed_positions : List Nat) : String :=
  if logic_str = "" then ""
  else String.mk (updateLogicCore (logicSplit logic_str.data) removed_positions)

/-! ## Word-bounded search and replacement (`re.search`/`re.sub` with
`\b pattern \b`) -/

/-- Word-bounded search for `needle` in a string under character comparison
`cmp` (exact or case-insensitive): Python
`re.search(rf"\b{re.escape(needle)}\b", hay)`.  `prev` is the character
before the scan position.  Modelled for nonempty `needle` (the source never
searches for an empty field reference). -/
def wbSearchAux (cmp : Char → Char → Bool) (fuel : Nat) (needle : List Char)
    (prev : Option Char) (cs : List Char) : Bool :=
  match fuel with
  | 0 => false
  | f + 1 =>
    let hit :=
      !needle.isEmpty &&
      (match matchPre cmp needle cs with
       | none => false
       | some rest =>
         isBdry prev cs.head? && isBdry ((cs.take needle.length).getLast?) rest.head?)
    if hit then true
    else
      match cs with
      | [] => false
      | c :: cs' => wbSearchAux cmp f needle (some c) cs'

/-- Case-sensitive word-bounded occurrence. -/
def wbOccurs (needle hay : List Char) : Bool :=
  wbSearchAux (fun a b => a == b) (hay.length + 1) needle none hay

/-- Case-insensitive word-bounded occurrence (`re.IGNORECASE`). -/
def wbOccursCI (needle hay : List Char) : Bool :=
  wbSearchAux ciEqCh (hay.length + 1) needle none hay

/-- Word-bounded replace-all, Python
`re.sub(r"\b" + re.escape(old) + r"\b", new, text)`: scanning resumes after
each replacement, with boundaries evaluated against the original text. -/
def wbReplaceAux (fuel : Nat) (old new : List Char) (prev : Option Char) :
    List Char → List Char
  | [] => []
  | c :: cs =>
    match fuel with
    | 0 => c :: cs
    | f + 1 =>
      let rep : Option (List Char) :=
        if old.isEmpty then none
        else
          match matchPre (fun a b => a == b) old (c :: cs) with
          | none => none
          | some rest =>
            if isBdry prev (some c) && isBdry old.getLast? rest.head? then some rest
            else none
      match rep with
      | some rest => new ++ wbReplaceAux f old new old.getLast? rest
      | none => c :: wbReplaceAux f old new (some c) cs

/-- Embedding of `utils.swap_field_in_text`. -/
def swap_field_in_text (text old_exact_api new_exact_api : String) : String :=
  String.mk (wbReplaceAux (text.data.length + 1) old_exact_api.data
    new_exact_api.data none text.data)

/-! ## The query rewriter (`utils.update_query`) -/

/-- Match `\s+FROM\s+` (case-insensitive) at the start of `cs`: on success
returns the matched original text and the remainder.  Both `\s+` runs are
greedy and deterministic here because whitespace cannot begin `FROM`. -/
def wsFromWsAt (cs : List Char) : Option (List Char × List Char) :=
  let w1 := cs.takeWhile isWs
  if w1.isEmpty then none
  else
    match matchPre ciEqCh "FROM".data (cs.dropWhile isWs) with
    | none => none
    | some r2 =>
      let w2 := r2.takeWhile isWs
      if w2.isEmpty then none
      else some (w1 ++ (cs.dropWhile isWs).take 4 ++ w2, r2.drop w2.length)

/-- Scan left-to-right for the earliest occurrence of `\s+FROM\s+` (the lazy
`(.*?)` group): returns (consumed text, separator match, remainder). -/
def scanFromSepAux (fuel : Nat) (acc : List Char) (cs : List Char) :
    Option (List Char × List Char × List Char) :=
  match fuel with
  | 0 => none
  | f + 1 =>
    match wsFromWsAt cs with
    | some (sep, rest) => some (acc.reverse, sep, rest)
    | none =>
      match cs with
      | [] => none
      | c :: cs' => scanFromSepAux f (c :: acc) cs'

/-- The `(SELECT\s+)` group tries the maximal whitespace run first and backs
off one character at a time (greedy `\s+` backtracking), each time scanning
for the earliest `\s+FROM\s+`. -/
def selTryW (head6 : List Char) (wsAll : List Char) (rest0 : List Char) :
    Nat → Option (List Char × List Char × List Char × List Char)
  | 0 => none
  | w + 1 =>
    let tail := wsAll.drop (w + 1) ++ rest0
    match scanFromSepAux (tail.length + 1) [] tail with
    | some (items, sep, rest) => some (head6 ++ wsAll.take (w + 1), items, sep, rest)
    | none => selTryW head6 wsAll rest0 w

/-- Embedding of `re.match(r"(?i)(SELECT\s+)(.*?)(\s+FROM\s+)", q)`:
returns (before_select, select_items, after_select, remainder-after-match). -/
def selFromMatch (cs : List Char) : Option (List Char × List Char × List Char × List Char) :=
  match matchPre ciEqCh "SELECT".data cs with
  | none => none
  | some rest =>
    let wsAll := rest.takeWhile isWs
    if wsAll.isEmpty then none
    else selTryW (cs.take 6) wsAll (rest.drop wsAll.length) wsAll.length

/-- Select-list removal predicate: the stripped expression equals a removed
contextual path or is a dotted sub-path of one. -/
def selectRemovePred (ctx : List (List Char)) (expr : List Char) : Bool :=
  ctx.contains expr || ctx.any (fun rem => (rem ++ ['.']).isPrefixOf expr)

/-- Step 1 of `update_query`: rewrite the SELECT list. -/
def selectRewrite (cs : List Char) (ctx : List (List Char)) : List Char :=
  match selFromMatch cs with
  | none => cs
  | some (bef, items, sep, rest) =>
    let fields_in_select := (splitOnCharL ',' items).map pyStripL
    let cleaned := fields_in_select.filter (fun e => !selectRemovePred ctx e)
    bef ++ joinWithL [','] cleaned ++ sep ++ rest

/-- Whether `\s+ORDER\s+BY` (case-insensitive) matches at the start of `cs`
(the `.*` after `BY` always succeeds). -/
def ordByAt (cs : List Char) : Bool :=
  let w1 := cs.takeWhile isWs
  if w1.isEmpty then false
  else
    match matchPre ciEqCh "ORDER".data (cs.dropWhile isWs) with
    | none => false
    | some r2 =>
      let w2 := r2.takeWhile isWs
      if w2.isEmpty then false
      else (matchPre ciEqCh "BY".data (r2.dropWhile isWs)).isSome

/-- Lazy `(.*?)(\s+ORDER\s+BY.*|$)`: the condition ends at the earliest
`\s+ORDER\s+BY` or at the end of the string. -/
def scanOrdBy (fuel : Nat) (acc : List Char) (cs : List Char) : List Char × List Char :=
  match fuel with
  | 0 => (acc.reverse, cs)
  | f + 1 =>
    if ordByAt cs then (acc.reverse, cs)
    else
      match cs with
      | [] => (acc.reverse, [])
      | c :: cs' => scanOrdBy f (c :: acc) cs'

/-- Earliest case-insensitive `WHERE` followed by at least one whitespace
(the lazy `.*?WHERE\s+` group, `\s+` greedy): returns the whole group text
and the remainder. -/
def findWhere (fuel : Nat) (acc : List Char) (cs : List Char) :
    Option (List Char × List Char) :=
  match fuel with
  | 0 => none
  | f + 1 =>
    let hit : Option (List Char × List Char) :=
      match matchPre ciEqCh "WHERE".data cs with
      | none => none
      | some r =>
        let w := r.takeWhile isWs
        if w.isEmpty then none
        else some (acc.reverse ++ cs.take 5 ++ w, r.drop w.length)
    match hit with
    | some res => some res
    | none =>
      match cs with
      | [] => none
      | c :: cs' => findWhere f (c :: acc) cs'

/-- Embedding of
`re.match(r"(.*?WHERE\s+)(.*?)(\s+ORDER\s+BY.*|$)", q, re.I | re.DOTALL)`:
returns (prefix ending after `WHERE\s+`, condition, suffix). -/
def whereMatch (cs : List Char) : Option (List Char × List Char × List Char) :=
  match findWhere (cs.length + 1) [] cs with
  | none => none
  | some (g1, rest) =>
    let p := scanOrdBy (rest.length + 1) [] rest
    some (g1, p.1, p.2)

/-- Case-insensitive split on `(\bAND\b|\bOR\b)` with the delimiters kept,
exactly as `re.split` with one capture group (interleaved chunks and
operator matches, original casing preserved). -/
def splitBoolOpsAux (fuel : Nat) (prev : Option Char) (cur : List Char) :
    List Char → List (List Char)
  | [] => [cur.reverse]
  | c :: rest =>
    match fuel with
    | 0 => [cur.reverse ++ c :: rest]
    | f + 1 =>
      let prevNonWord : Bool := !(match prev with | none => false | some p => isWordChar p)
      if ciEqCh c 'A' ∧ (rest.take 2).map Char.toUpper = ['N', 'D'] ∧ prevNonWord
          ∧ !(match (rest.drop 2).head? with | none => false | some d => isWordChar d) then
        cur.reverse :: (c :: rest.take 2) ::
          splitBoolOpsAux f ((rest.take 2).getLast? <|> some c) [] (rest.drop 2)
      else if ciEqCh c 'O' ∧ (rest.take 1).map Char.toUpper = ['R'] ∧ prevNonWord
          ∧ !(match (rest.drop 1).head? with | none => false | some d => isWordChar d) then
        cur.reverse :: (c :: rest.take 1) ::
          splitBoolOpsAux f ((rest.take 1).getLast? <|> some c) [] (rest.drop 1)
      else splitBoolOpsAux f (some c) (c :: cur) rest

def splitBoolOps (cs : List Char) : List (List Char) :=
  splitBoolOpsAux (cs.length + 1) none [] cs

/-- Upper-cased operator test, Python `t.upper() in ('AND', 'OR')`. -/
def isOpU (t : List Char) : Bool :=
  t.map Char.toUpper == ['A', 'N', 'D'] || t.map Char.toUpper == ['O', 'R']

/-- One iteration of the WHERE-condition loop of `update_query`
(lines 160-177 of `utils.py`). -/
def condAccStep (ctx : List (List Char)) (acc : List (List Char)) (part : List Char) :
    List (List Char) :=
  let pc := pyStripL part
  if isOpU pc then
    match acc.getLast? with
    | some lastP => if isOpU lastP then acc else acc ++ [pc.map Char.toUpper]
    | none => acc
  else
    let rem := ctx.any (fun r => wbOccursCI r pc)
    if rem then
      match acc.getLast? with
      | some lastP => if isOpU lastP then acc.dropLast else acc
      | none => acc
    else acc ++ [pc]

/-- Post-loop pop of a trailing dangling operator (line 178-179). -/
def popTrailOp (acc : List (List Char)) : List (List Char) :=
  match acc.getLast? with
  | some lastP => if isOpU lastP then acc.dropLast else acc
  | none => acc

/-- Strip one trailing boolean operator with mandatory preceding whitespace:
`re.sub(r'\s+(AND|OR)\s*$', '', s, flags=re.IGNORECASE)`. -/
def stripTrailOpQuery (cs : List Char) : List Char :=
  let r := cs.reverse
  let r1 := r.dropWhile isWs
  if (r1.take 3).map Char.toUpper = ['D', 'N', 'A'] then
    let rest := r1.drop 3
    if (match rest.head? with | none => false | some d => isWs d) then
      (rest.dropWhile isWs).reverse
    else cs
  else if (r1.take 2).map Char.toUpper = ['R', 'O'] then
    let rest := r1.drop 2
    if (match rest.head? with | none => false | some d => isWs d) then
      (rest.dropWhile isWs).reverse
    else cs
  else cs

/-- Lines 157-191 of `utils.py`: rewrite the WHERE condition.  Returns
`none` when no condition survives (both "elide the WHERE clause" exits)
and the final condition text (wrapped when needed) otherwise. -/
def condFinal (cond : List Char) (ctx : List (List Char)) : Option (List Char) :=
  let parts := splitBoolOps cond
  let acc := popTrailOp (parts.foldl (condAccStep ctx) [])
  if acc.isEmpty then none
  else
    let s1 := pyStripL (wsCollapse (interSpace acc))
    let s2 := stripTrailOpQuery (stripLeadOpLogic s1)
    if s2.isEmpty then none
    else if s2.head? = some '(' ∧ s2.getLast? = some ')'
        ∧ countCh '(' s2 = countCh ')' s2 then some s2
    else some ('(' :: s2 ++ [')'])

/-- Embedding of `utils.update_query`. -/
def update_query (query_str : String) (contextual_paths_to_remove : List String) : String :=
  let ctx := contextual_paths_to_remove.map String.data
  let q1 := selectRewrite query_str.data ctx
  match whereMatch q1 with
  | none => String.mk q1
  | some (g1, cond, suf) =>
    match condFinal cond ctx with
    | none =>
      let pg := pyStripL g1
      String.mk (pyStripL (pyRstripL (pg.take (pg.length - 5)) ++ suf))
    | some s => String.mk (pyStripL (pyStripL g1 ++ ' ' :: s ++ ' ' :: pyStripL suf))

/-! ## Comma-list and key-value rewriters (`utils.py`) -/

/-- Embedding of `utils.remove_field_from_text`. -/
def remove_field_from_text (text_content field_api_path_to_remove : String) : String :=
  if field_api_path_to_remove = "" ∨ (pyStripL field_api_path_to_remove.data).isEmpty then
    text_content
  else
    String.mk (joinWithL [',', ' ']
      ((commaItemsL text_content.data).filter (fun item => item ≠ field_api_path_to_remove.data)))

/-- Keep test for one item of `remove_key_value_entry`: items without the
separator are kept; an item with the separator is kept unless its stripped
key equals the key to remove. -/
def kvKeep (separator : Char) (key : List Char) (item : List Char) : Bool :=
  match (splitFirstAt separator item).2 with
  | some _ => pyStripL (splitFirstAt separator item).1 ≠ key
  | none => true

/-- Embedding of `utils.remove_key_value_entry`. -/
def remove_key_value_entry (kv_string key_to_remove : String) (separator : Char) : String :=
  if kv_string = "" ∨ key_to_remove = "" then kv_string
  else
    String.mk (joinWithL [',', ' ']
      ((commaItemsL kv_string.data).filter (kvKeep separator key_to_remove.data)))

/-- Embedding of `utils.add_fields_to_list` (joins with a bare comma). -/
def add_fields_to_list (text : String) (fields_to_add_list_canonical : List String) : String :=
  let items := commaItemsL text.data
  let final := fields_to_add_list_canonical.foldl
    (fun its f => if its.contains f.data then its else its ++ [f.data]) items
  String.mk (joinWithL [','] final)

/-- Python `str.title()` on ASCII text: a letter is upper-cased when the
previous character is not a letter, lower-cased otherwise. -/
def titleAux (prevCased : Bool) : List Char → List Char
  | [] => []
  | c :: cs =>
    if c.isAlpha then (if prevCased then c.toLower else c.toUpper) :: titleAux true cs
    else c :: titleAux false cs

/-- Embedding of `utils.generate_sitetracker_filter_label`. -/
def generate_sitetracker_filter_label (full_api_path : String) : String :=
  if full_api_path = "" then ""
  else
    let final_segment := (splitOnCharL '.' full_api_path.data).getLastD []
    let label_root :=
      if final_segment.reverse.take 3 = ['c', '_', '_'] then
        final_segment.take (final_segment.length - 3)
      else if final_segment.reverse.take 3 = ['r', '_', '_'] then
        final_segment.take (final_segment.length - 3)
      else final_segment
    String.mk (titleAux false (label_root.map (fun c => if c == '_' then ' ' else c)))

/-- Embedding of `utils.get_sitetracker_filter_sobject`. -/
def get_sitetracker_filter_sobject (full_api_path base_tracker_sobject_name : String) : String :=
  if full_api_path = "" then base_tracker_sobject_name
  else
    let parts := splitOnCharL '.' full_api_path.data
    if parts.length = 1 then base_tracker_sobject_name
    else
      let rel := parts.getD (parts.length - 2) []
      if rel.reverse.take 3 = ['r', '_', '_'] then
        String.mk (rel.take (rel.length - 3) ++ ['_', '_', 'c'])
      else String.mk rel

/-! ## The field locator (`utils.find_contextual_occurrences_of_field`) -/

/-- One `[a-zA-Z0-9_]+__r\.` relationship segment at the start of `cs`.
Deterministic: the word run is maximal (`\w+` cannot stop earlier, since the
next pattern character is a literal dot and dots are not word characters),
must end in `__r` and be followed by a dot. -/
def segMatch (cs : List Char) : Option (List Char × List Char) :=
  let w := cs.takeWhile isWordChar
  if w.isEmpty then none
  else if w.reverse.take 3 ≠ ['r', '_', '_'] then none
  else
    match cs.drop w.length with
    | '.' :: rest => some (w ++ ['.'], rest)
    | _ => none

/-- Greedy chain `(?:\w+__r\.)*canon\b` at the start of `cs`, with the
regex backtracking order: prefer more segments, fall back to matching the
canonical name directly at each level. -/
def tryChain (fuel : Nat) (canon : List Char) (cs : List Char) : Option (List Char) :=
  let canonHere : Option (List Char) :=
    match matchPre (fun a b => a == b) canon cs with
    | none => none
    | some rest =>
      if isBdry (cs.take canon.length).getLast? rest.head? then some canon else none
  match fuel with
  | 0 => canonHere
  | f + 1 =>
    match segMatch cs with
    | some (seg, rest) =>
      (match tryChain f canon rest with
       | some m => some (seg ++ m)
       | none => canonHere)
    | none => canonHere

/-- `re.findall` scan for the contextual-occurrence pattern: leftmost
non-overlapping matches, each requiring a word boundary before its first
character (the pattern starts with `\b`). -/
def fcoAux (fuel : Nat) (canon : List Char) (prev : Option Char) (cs : List Char)
    (found : List (List Char)) : List (List Char) :=
  match fuel with
  | 0 => found.reverse
  | f + 1 =>
    match cs with
    | [] => found.reverse
    | c :: cs' =>
      let m := if isBdry prev (some c) then tryChain cs.length canon cs else none
      match m with
      | some mt =>
        if mt.isEmpty then fcoAux f canon (some c) cs' found
        else fcoAux f canon mt.getLast? (cs.drop mt.length) (mt :: found)
      | none => fcoAux f canon (some c) cs' found

/-- Embedding of `utils.find_contextual_occurrences_of_field`. -/
def find_contextual_occurrences_of_field (text_to_search canonical_field_name : String) :
    List String :=
  if text_to_search = "" ∨ canonical_field_name = "" then []
  else
    (sortedDedup (fcoAux (text_to_search.data.length + 1) canonical_field_name.data
      none text_to_search.data [])).map String.mk

/-! ## The tracker row model and `modifications.modify_trackers`

The `Filters` column is modelled structurally (see the header): a filter
condition is a dict with a `field` string (missing key reads as `""`, as
`f_dict.get('field', '')` does) and optional `label`/`sobject` keys; a list
may also contain non-dict entries. -/

structure FilterCond where
  field : String
  label : Option String
  sobject : Option String
deriving DecidableEq

inductive FilterItem where
  | dictItem (f : FilterCond)
  | nonDict
deriving DecidableEq

/-- Parse state of the raw `Filters` column: a JSON list, a JSON non-list,
or an unparseable string (which raises `json.JSONDecodeError` on load). -/
inductive FiltersCol where
  | oklist (l : List FilterItem)
  | notList
  | bad (raw : String)
deriving DecidableEq

/-- One tracker row, restricted to the columns the engine touches. -/
structure Row where
  trackerId : String
  objectName : String
  fields : String
  filters : FiltersCol
  logic : String
  query : String
  formatting : String
  orderBy : String
  resizeMap : String
  labelMap : String
deriving DecidableEq

/-- Structural presence of a field reference in the parsed filters, as the
swap-degrade check performs it (lines 136-142 of `modifications.py`);
parse failure and non-list values yield `False`. -/
def structNewExists (fc : FiltersCol) (napi : String) : Bool :=
  match fc with
  | .oklist l => l.any (fun it =>
      match it with
      | .dictItem f => f.field == napi
      | .nonDict => false)
  | _ => false

/-- The swap-degrade precondition (lines 134-146): the new reference is
structurally present in `Filters` or textually word-bounded in `Fields`. -/
def newFieldExistsInRow (row : Row) (napi : String) : Bool :=
  structNewExists row.filters napi || wbOccurs napi.data row.fields.data

/-- Build the effective removal list and swap map for one row
(lines 122-153): a swap whose new field already exists degrades to removal
of the old field. -/
def effectiveLists (row : Row) (removeInit : List String)
    (swapMapCmd : List (String × String)) : List String × List (String × String) :=
  swapMapCmd.foldl
    (fun acc pair =>
      if newFieldExistsInRow row pair.2 then
        (if acc.1.contains pair.1 then acc.1 else acc.1 ++ [pair.1], acc.2)
      else (acc.1, acc.2 ++ [pair]))
    (removeInit, [])

/-- The contextual removal paths for one row (lines 157-163): each removed
reference plus every contextual occurrence of its final path segment in the
current `Fields` column, deduplicated and sorted. -/
def ctxPaths (fieldsStr : String) (rm : List String) : List String :=
  (sortedDedup ((rm.foldr
    (fun r acc =>
      r.data :: (find_contextual_occurrences_of_field fieldsStr
        (String.mk ((splitOnCharL '.' r.data).getLastD []))).map String.data ++ acc)
    []))).map String.mk

/-- Filter-condition removal predicate (line 179). -/
def filterFieldRemoved (ctx : List String) (fieldVal : String) : Bool :=
  ctx.contains fieldVal || ctx.any (fun rem => (rem.data ++ ['.']).isPrefixOf fieldVal.data)

/-- Remove matching conditions from the parsed filter list, recording the
1-based positions of removed conditions (lines 170-183).  Non-dict entries
are silently dropped without recording a position, exactly as the source
does. -/
def removeFilters (ctx : List String) : List FilterItem → Nat → List FilterItem × List Nat
  | [], _ => ([], [])
  | it :: rest, pos =>
    let r := removeFilters ctx rest (pos + 1)
    match it with
    | .dictItem f =>
      if filterFieldRemoved ctx f.field then (r.1, pos :: r.2)
      else (.dictItem f :: r.1, r.2)
    | .nonDict => (r.1, r.2)

/-- Formatting-line removal predicate (lines 196-203): a line splitting into
exactly two `=` parts is dropped when the `:`-head of its stripped left key
is a removed contextual path or a dotted sub-path of one. -/
def fmtLineDrop (ctx : List String) (line : List Char) : Bool :=
  let kv_parts := splitOnCharL '=' line
  if kv_parts.length = 2 then
    let left_key := pyStripL (kv_parts.headD [])
    let field_val_left := pyStripL ((splitOnCharL ':' left_key).headD [])
    ctx.contains (String.mk field_val_left)
      || ctx.any (fun rem => (rem.data ++ ['.']).isPrefixOf field_val_left)
  else false

/-- The removal pass over one row (lines 156-215).  Only called with a
nonempty effective removal list; `r0` is its first element, the only one
used for `Fields`, `OrderBy(Long)`, `ResizeMap` and `Label Map`. -/
def removeApply (row : Row) (rm : List String) : Row :=
  let ctx := ctxPaths row.fields rm
  let r0 := rm.headD ""
  let parsed : FiltersCol × List Nat :=
    match row.filters with
    | .oklist l => let p := removeFilters ctx l 1; (.oklist p.1, p.2)
    | .notList => (.oklist [], [])
    | .bad s => (.bad s, [])
  { row with
    fields := remove_field_from_text row.fields r0
    filters := parsed.1
    logic := update_logic row.logic parsed.2
    query := update_query row.query ctx
    formatting := String.mk (joinWithL ['\n']
      ((splitOnCharL '\n' row.formatting.data).filter (fun line => !fmtLineDrop ctx line)))
    orderBy := remove_key_value_entry row.orderBy r0 '='
    resizeMap := remove_key_value_entry row.resizeMap r0 '='
    labelMap := remove_key_value_entry row.labelMap r0 ':' }

/-- One swap application over the current row state (lines 218-273).
The structural filter update recomputes `label` and `sobject` only for
conditions that carry those keys; parse failure leaves the raw column
unchanged (the `except` branch is a bare `pass`). -/
def swapApply (base : String) (row : Row) (old_api new_api : String) : Row :=
  { row with
    fields := swap_field_in_text row.fields old_api new_api
    filters :=
      match row.filters with
      | .oklist l => .oklist (l.map (fun it =>
          match it with
          | .dictItem f =>
            if f.field == old_api then
              .dictItem ⟨new_api,
                f.label.map (fun _ => generate_sitetracker_filter_label new_api),
                f.sobject.map (fun _ => get_sitetracker_filter_sobject new_api base)⟩
            else .dictItem f
          | .nonDict => .nonDict))
      | other => other
    logic := swap_field_in_text row.logic old_api new_api
    query := swap_field_in_text row.query old_api new_api
    formatting := String.mk (joinWithL ['\n']
      ((splitOnCharL '\n' row.formatting.data).map
        (fun line => (swap_field_in_text (String.mk line) old_api new_api).data)))
    orderBy := swap_field_in_text row.orderBy old_api new_api
    resizeMap := swap_field_in_text row.resizeMap old_api new_api
    labelMap := swap_field_in_text row.labelMap old_api new_api }

/-- Processing of one selected row inside `modify_trackers` (lines 119-280):
degrade swaps, apply removals, apply surviving swaps, apply additions. -/
def processRow (row : Row) (removeInit : List String)
    (swapMapCmd : List (String × String)) (addList : List String) : Row :=
  let base := row.objectName
  let eff := effectiveLists row removeInit swapMapCmd
  let row1 := if eff.1.isEmpty then row else removeApply row eff.1
  let row2 := eff.2.foldl (fun r pair => swapApply base r pair.1 pair.2) row1
  if addList.isEmpty then row2
  else { row2 with fields := add_fields_to_list row2.fields addList }

/-- Removal instructions: an audit-derived per-tracker-id mapping or a flat
list.  The loop body only consults the mapping form (lines 126-128); a flat
list contributes nothing to the effective removal list. -/
inductive RemovalInstr where
  | byId (m : String → List String)
  | flat (l : List String)

def instrFor (instr : RemovalInstr) (trackerId : String) : List String :=
  match instr with
  | .byId m => m trackerId
  | .flat _ => []

/-- Result of the batch operation: the rows written to the modified CSV, the
rows written to the backup CSV, and the caller's input collection as it
stands after the call (all writes target an internal copy). -/
structure ModifyResult where
  outputRows : List Row
  backupRows : List Row
  dfOrigAfter : Nat → Row

/-- Embedding of `modifications.modify_trackers`: the backup is captured
from `df_orig` before the loop, the loop mutates a copy, and the two CSV
outputs are the selected rows of the copy and the backup. -/
def modify_trackers (df_orig : Nat → Row) (selected_indices : List Nat)
    (removal_instructions : RemovalInstr) (swap_map_cmd : List (String × String))
    (add_list_cmd : List String) : ModifyResult :=
  let backup_df := selected_indices.map df_orig
  let modified_df_copy := selected_indices.foldl
    (fun acc idx =>
      let row := acc idx
      fun n => if n = idx then
          processRow row (instrFor removal_instructions row.trackerId) swap_map_cmd add_list_cmd
        else acc n)
    df_orig
  { outputRows := selected_indices.map modified_df_copy
    backupRows := backup_df
    dfOrigAfter := df_orig }

/-- A concrete row used to instantiate the no-occurrence claims: its fields
column is comma-joined without spaces and no column mentions `Z__c`. -/
def rowC8w : Row := ⟨"t", "Obj", "A__c,B__c", .oklist [], "", "", "", "A__c=ASC", "", ""⟩

/-! ## Observation functions used by the specification claims -/

/-- Emit a pending (reversed) run accumulator. -/
def emitAcc (acc : List Char) : List (List Char) :=
  if acc.isEmpty then [] else [acc.reverse]

/-- Maximal runs of characters satisfying `p` (accumulator-passing form). -/
def runsPAux (p : Char → Bool) (acc : List Char) : List Char → List (List Char)
  | [] => emitAcc acc
  | c :: cs => if p c then runsPAux p (c :: acc) cs else emitAcc acc ++ runsPAux p [] cs

/-- Maximal runs of characters satisfying `p` in a string. -/
def runsP (p : Char → Bool) (cs : List Char) : List (List Char) :=
  runsPAux p [] cs

/-- Maximal digit runs: the integer literals readable from a string. -/
def digitRuns (cs : List Char) : List (List Char) := runsP Char.isDigit cs

/-- Maximal word-character runs: the identifier-like tokens of a string. -/
def wordRuns (cs : List Char) : List (List Char) := runsP isWordChar cs

/-- The integer value of one token when it is a digit token (after the
source's `tok.strip()` and `t.isdigit()` tests). -/
def digitValOf (tok : List Char) : Option Nat :=
  let t := pyStripL tok
  if isDigitStr t then some (natOfDigits t) else none

/-- The integer values of the digit tokens of a logic string, in token
order: these are the filter positions the source's tokenizer reads. -/
def logicDigitVals (cs : List Char) : List Nat :=
  (logicSplit cs).filterMap digitValOf

/-- A string starts with a dangling boolean operator: after leading
whitespace it opens with `AND`/`OR` (any case) at a token end. -/
def startsWithBoolOp (cs : List Char) : Bool :=
  let t := cs.dropWhile isWs
  ((t.take 3).map Char.toUpper = ['A', 'N', 'D']
    ∧ !(match (t.drop 3).head? with | none => false | some d => isWordChar d))
  || ((t.take 2).map Char.toUpper = ['O', 'R']
    ∧ !(match (t.drop 2).head? with | none => false | some d => isWordChar d))

/-- A string ends with a dangling boolean operator. -/
def endsWithBoolOp (cs : List Char) : Bool :=
  let r := cs.reverse.dropWhile isWs
  ((r.take 3).map Char.toUpper = ['D', 'N', 'A']
    ∧ !(match (r.drop 3).head? with | none => false | some d => isWordChar d))
  || ((r.take 2).map Char.toUpper = ['R', 'O']
    ∧ !(match (r.drop 2).head? with | none => false | some d => isWordChar d))

/-- All occurrence tests `processRow` performs for a removal set come out
negative on this row: the formal reading of "no removed reference occurs
anywhere in the row".  `ctx` ranges over the row's computed contextual
removal paths. -/
def noRefOccurs (row : Row) (rm : List String) : Prop :=
  let ctx := ctxPaths row.fields rm
  (∀ item ∈ commaItemsL row.fields.data, item ≠ (rm.headD "").data)
  ∧ (∀ l, row.filters = .oklist l →
      ∀ it ∈ l, ∀ f, it = .dictItem f → filterFieldRemoved ctx f.field = false)
  ∧ (∀ line ∈ splitOnCharL '\n' row.formatting.data, fmtLineDrop ctx line = false)
  ∧ (∀ item ∈ commaItemsL row.orderBy.data, kvKeep '=' (rm.headD "").data item = true)
  ∧ (∀ item ∈ commaItemsL row.resizeMap.data, kvKeep '=' (rm.headD "").data item = true)
  ∧ (∀ item ∈ commaItemsL row.labelMap.data, kvKeep ':' (rm.headD "").data item = true)
  ∧ (∀ bef items sep rest, selFromMatch row.query.data = some (bef, items, sep, rest) →
      ∀ e ∈ (splitOnCharL ',' items).map pyStripL,
        selectRemovePred (ctx.map String.data) e = false)
  ∧ (∀ g1 cond suf,
      whereMatch (selectRewrite row.query.data (ctx.map String.data)) = some (g1, cond, suf) →
      ∀ part ∈ splitBoolOps cond,
        (ctx.map String.data).any (fun r => wbOccursCI r (pyStripL part)) = false)

/-! ## Supporting lemmas: maximal runs under a character predicate -/

theorem runsPAux_nil (p : Char → Bool) (acc : List Char) :
    runsPAux p acc [] = emitAcc acc := rfl

theorem runsPAux_cons_pos {p : Char → Bool} {c : Char} (h : p c = true)
    (acc cs : List Char) : runsPAux p acc (c :: cs) = runsPAux p (c :: acc) cs := by
  simp [runsPAux, h]

theorem runsPAux_cons_neg {p : Char → Bool} {c : Char} (h : p c = false)
    (acc cs : List Char) :
    runsPAux p acc (c :: cs) = emitAcc acc ++ runsPAux p [] cs := by
  simp [runsPAux, h]

theorem runsPAux_allP (p : Char → Bool) :
    ∀ (xs : List Char), (∀ c ∈ xs, p c = true) →
    ∀ (acc cs : List Char), runsPAux p acc (xs ++ cs) = runsPAux p (xs.reverse ++ acc) cs := by
  intro xs
  induction xs with
  | nil => intro _ acc cs; simp
  | cons x xs ih =>
    intro h acc cs
    have px : p x = true := h x (by simp)
    rw [List.cons_append, runsPAux_cons_pos px, ih (fun c hc => h c (by simp [hc])) (x :: acc) cs]
    simp [List.append_assoc]

theorem runsP_cons_neg {p : Char → Bool} {c : Char} (h : p c = false) (cs : List Char) :
    runsP p (c :: cs) = runsP p cs := by
  rw [runsP, runsPAux_cons_neg h]
  simp [emitAcc, runsP]

theorem runsP_nonP_pre {p : Char → Bool} :
    ∀ (xs : List Char), (∀ c ∈ xs, p c = false) →
    ∀ (ys : List Char), runsP p (xs ++ ys) = runsP p ys := by
  intro xs
  induction xs with
  | nil => intro _ ys; simp
  | cons x xs ih =>
    intro h ys
    rw [List.cons_append, runsP_cons_neg (h x (by simp)), ih (fun c hc => h c (by simp [hc]))]

theorem runsPAux_append_right {p : Char → Bool} {ys : List Char}
    (hy : ∀ c, ys.head? = some c → p c = false) :
    ∀ (xs acc : List Char),
      runsPAux p acc (xs ++ ys) = runsPAux p acc xs ++ runsPAux p [] ys := by
  intro xs
  induction xs with
  | nil =>
    intro acc
    cases ys with
    | nil => simp [runsPAux_nil, emitAcc]
    | cons c ys' =>
      have hc : p c = false := hy c rfl
      rw [List.nil_append, runsPAux_cons_neg hc, runsPAux_nil, runsPAux_cons_neg hc]
      simp [emitAcc]
  | cons x xs ih =>
    intro acc
    by_cases px : p x = true
    · rw [List.cons_append, runsPAux_cons_pos px, runsPAux_cons_pos px, ih (x :: acc)]
    · have px' : p x = false := by simpa using px
      rw [List.cons_append, runsPAux_cons_neg px', runsPAux_cons_neg px', ih []]
      simp [List.append_assoc]

theorem runsP_append_right {p : Char → Bool} {xs ys : List Char}
    (hy : ∀ c, ys.head? = some c → p c = false) :
    runsP p (xs ++ ys) = runsP p xs ++ runsP p ys :=
  runsPAux_append_right hy xs []

theorem runsPAux_append_left {p : Char → Bool} {ys : List Char} :
    ∀ (xs : List Char), xs ≠ [] → (∀ c, xs.getLast? = some c → p c = false) →
    ∀ (acc : List Char),
      runsPAux p acc (xs ++ ys) = runsPAux p acc xs ++ runsPAux p [] ys := by
  intro xs
  induction xs with
  | nil => intro h; exact absurd rfl h
  | cons x xs ih =>
    intro _ hlast acc
    cases xs with
    | nil =>
      have px : p x = false := hlast x rfl
      rw [List.cons_append, List.nil_append, runsPAux_cons_neg px, runsPAux_cons_neg px,
        runsPAux_nil]
      simp [emitAcc]
    | cons y rest =>
      have hlast' : ∀ c, (y :: rest).getLast? = some c → p c = false := by
        intro c hc
        exact hlast c (by rw [List.getLast?_cons_cons]; exact hc)
      by_cases px : p x = true
      · rw [List.cons_append, runsPAux_cons_pos px, runsPAux_cons_pos px,
          ih (by simp) hlast' (x :: acc)]
      · have px' : p x = false := by simpa using px
        rw [List.cons_append, runsPAux_cons_neg px', runsPAux_cons_neg px',
          ih (by simp) hlast' []]
        simp [List.append_assoc]

theorem runsP_append_left {p : Char → Bool} {xs ys : List Char} (hne : xs ≠ [])
    (hlast : ∀ c, xs.getLast? = some c → p c = false) :
    runsP p (xs ++ ys) = runsP p xs ++ runsP p ys :=
  runsPAux_append_left xs hne hlast []

theorem runsP_allP {p : Char → Bool} {xs : List Char}
    (h : ∀ c ∈ xs, p c = true) (hne : xs ≠ []) : runsP p xs = [xs] := by
  have h2 := runsPAux_allP p xs h [] []
  simp only [List.append_nil] at h2
  rw [runsP, h2, runsPAux_nil]
  simp [emitAcc, hne]

theorem runsP_allNeg {p : Char → Bool} {xs : List Char}
    (h : ∀ c ∈ xs, p c = false) : runsP p xs = [] := by
  have := runsP_nonP_pre xs h []
  simpa using this

/-- Dichotomy hypothesis for tokens: each token is a nonempty all-`p` string
or an all-non-`p` string. -/
def tokDichot (p : Char → Bool) (t : List Char) : Prop :=
  (t ≠ [] ∧ ∀ c ∈ t, p c = true) ∨ (∀ c ∈ t, p c = false)

theorem runsP_single_tok {p : Char → Bool} {t : List Char} (h : tokDichot p t) :
    runsP p t = if (!t.isEmpty && t.all p) = true then [t] else [] := by
  rcases h with ⟨hne, hall⟩ | hneg
  · rw [runsP_allP hall hne]
    have hcond : (!t.isEmpty && t.all p) = true := by
      rw [Bool.and_eq_true, List.all_eq_true]
      refine ⟨?_, hall⟩
      simp [List.isEmpty_iff, hne]
    simp [hcond]
  · rw [runsP_allNeg hneg]
    cases t with
    | nil => simp
    | cons c cs =>
      have hc : p c = false := hneg c (by simp)
      have hall : (c :: cs).all p = false := by
        rw [List.all_cons, hc, Bool.false_and]
      simp [hall]

theorem runsP_append_cons_neg {p : Char → Bool} {c : Char} (pc : p c = false)
    (xs zs : List Char) :
    runsP p (xs ++ c :: zs) = runsP p xs ++ runsP p zs := by
  rw [@runsP_append_right p xs (c :: zs) ?hy, runsP_cons_neg pc]
  case hy =>
    intro d hd
    simp only [List.head?_cons, Option.some.injEq] at hd
    rw [← hd]
    exact pc

theorem runsP_append_allNeg {p : Char → Bool} {ws : List Char}
    (hws : ∀ c ∈ ws, p c = false) (xs : List Char) :
    runsP p (xs ++ ws) = runsP p xs := by
  cases hw : ws with
  | nil => simp
  | cons w ws' =>
    subst hw
    have hyw : ∀ d, (w :: ws').head? = some d → p d = false := by
      intro d hd
      simp only [List.head?_cons, Option.some.injEq] at hd
      rw [← hd]
      exact hws w (by simp)
    rw [runsP_append_right hyw, runsP_allNeg hws, List.append_nil]

theorem getLast?_reverse_eq_head? (l : List Char) : l.reverse.getLast? = l.head? := by
  cases l with
  | nil => rfl
  | cons a as =>
    rw [List.reverse_cons, List.getLast?_append_of_ne_nil as.reverse (by simp)]
    rfl

theorem runsP_interSpace {p : Char → Bool} (hsp : p ' ' = false) :
    ∀ (ts : List (List Char)), (∀ t ∈ ts, tokDichot p t) →
    runsP p (interSpace ts) = ts.filter (fun t => !t.isEmpty && t.all p) := by
  intro ts
  induction ts with
  | nil => intro _; simp [interSpace, runsP, runsPAux, emitAcc]
  | cons t ts ih =>
    intro h
    cases ts with
    | nil =>
      rw [show interSpace [t] = t from rfl, runsP_single_tok (h t (by simp))]
      by_cases hp : (!t.isEmpty && t.all p) = true
      · simp [hp]
      · simp [List.filter, show (!t.isEmpty && t.all p) = false by simpa using hp]
    | cons t2 rest =>
      rw [show interSpace (t :: t2 :: rest) = t ++ ' ' :: interSpace (t2 :: rest) from rfl]
      rw [runsP_append_cons_neg hsp, ih (fun u hu => h u (by simp [hu]))]
      rw [runsP_single_tok (h t (by simp))]
      by_cases hp : (!t.isEmpty && t.all p) = true
      · simp [hp]
      · simp [List.filter, show (!t.isEmpty && t.all p) = false by simpa using hp]

theorem delWsAfterAux_cons (trig : Char) (mode : Bool) (c : Char) (cs : List Char) :
    delWsAfterAux trig mode (c :: cs)
      = if (mode && isWs c) = true then delWsAfterAux trig true cs
        else c :: delWsAfterAux trig (c == trig) cs := rfl

/-- `delWsAfter` never changes the maximal `p`-runs when the trigger and
whitespace are non-`p` characters. -/
theorem runsP_delWsAfterAux {p : Char → Bool} {trig : Char}
    (hp1 : p trig = false) (hp2 : ∀ c, isWs c = true → p c = false) :
    ∀ (cs : List Char) (mode : Bool) (r : List Char),
      (∀ c ∈ r, p c = true) → (mode = true → r = []) →
      runsP p (r ++ delWsAfterAux trig mode cs) = runsP p (r ++ cs) := by
  intro cs
  induction cs with
  | nil => intro mode r _ _; rfl
  | cons c cs ih =>
    intro mode r hr hmode
    rw [delWsAfterAux_cons]
    by_cases hmw : (mode && isWs c) = true
    · have hm : mode = true := by
        cases mode
        · simp at hmw
        · rfl
      have hw : isWs c = true := by
        cases hisw : isWs c
        · rw [hisw] at hmw; simp at hmw
        · rfl
      have hr0 : r = [] := hmode hm
      subst hr0
      rw [if_pos hmw, List.nil_append, List.nil_append, runsP_cons_neg (hp2 c hw)]
      have := ih true [] (by simp) (by simp)
      simpa using this
    · rw [if_neg hmw]
      by_cases pc : p c = true
      · have hct : (c == trig) = false := by
          cases hceq : (c == trig)
          · rfl
          · exfalso
            have hc : c = trig := by simpa using hceq
            rw [hc, hp1] at pc
            simp at pc
        rw [hct]
        have e1 : r ++ c :: delWsAfterAux trig false cs
            = (r ++ [c]) ++ delWsAfterAux trig false cs := by simp
        have e2 : r ++ c :: cs = (r ++ [c]) ++ cs := by simp
        rw [e1, e2]
        refine ih false (r ++ [c]) ?_ (by intro hcon; exact absurd hcon (by simp))
        intro d hd
        rcases List.mem_append.mp hd with h1 | h1
        · exact hr d h1
        · have : d = c := by simpa using h1
          rw [this]
          exact pc
      · have pc' : p c = false := by simpa using pc
        rw [runsP_append_cons_neg pc', runsP_append_cons_neg pc']
        have := ih (c == trig) [] (by simp) (by intro _; rfl)
        simp only [List.nil_append] at this
        rw [this]

theorem runsP_delWsAfter {p : Char → Bool} {trig : Char} {cs : List Char}
    (hp1 : p trig = false) (hp2 : ∀ c, isWs c = true → p c = false) :
    runsP p (delWsAfter trig cs) = runsP p cs := by
  have := runsP_delWsAfterAux hp1 hp2 cs false [] (by simp) (by simp)
  simpa [delWsAfter] using this

theorem delWsBeforeAux_cons (trig : Char) (pend : List Char) (c : Char) (cs : List Char) :
    delWsBeforeAux trig pend (c :: cs)
      = if isWs c = true then delWsBeforeAux trig (c :: pend) cs
        else if (c == trig) = true then c :: delWsBeforeAux trig [] cs
        else pend.reverse ++ c :: delWsBeforeAux trig [] cs := rfl

/-- `delWsBefore` never changes the maximal `p`-runs when the trigger and
whitespace are non-`p` characters. -/
theorem runsP_delWsBeforeAux {p : Char → Bool} {trig : Char}
    (hp1 : p trig = false) (hp2 : ∀ c, isWs c = true → p c = false) :
    ∀ (cs : List Char) (pend r : List Char),
      (∀ c ∈ pend, isWs c = true) → (∀ c ∈ r, p c = true) →
      runsP p (r ++ delWsBeforeAux trig pend cs)
        = runsP p (r ++ pend.reverse ++ cs) := by
  intro cs
  induction cs with
  | nil =>
    intro pend r hpend _
    rw [show delWsBeforeAux trig pend [] = pend.reverse from rfl]
    rw [List.append_assoc, List.append_nil]
  | cons c cs ih =>
    intro pend r hpend hr
    have hpendrev : ∀ d ∈ pend.reverse, p d = false := by
      intro d hd
      exact hp2 d (hpend d (List.mem_reverse.mp hd))
    have hih00 : runsP p (delWsBeforeAux trig [] cs) = runsP p cs := by
      have := ih [] [] (by simp) (by simp)
      simpa using this
    rw [delWsBeforeAux_cons]
    by_cases hw : isWs c = true
    · rw [if_pos hw]
      rw [ih (c :: pend) r ?hp hr]
      · simp [List.reverse_cons, List.append_assoc]
      case hp =>
        intro d hd
        rcases List.mem_cons.mp hd with h1 | h1
        · rw [h1]; exact hw
        · exact hpend d h1
    · rw [if_neg hw]
      by_cases hct : (c == trig) = true
      · rw [if_pos hct]
        have hc : c = trig := by simpa using hct
        subst hc
        rw [runsP_append_cons_neg hp1, hih00]
        rw [List.append_assoc, @runsP_append_right p r (pend.reverse ++ c :: cs) ?hy]
        · rw [runsP_nonP_pre pend.reverse hpendrev, runsP_cons_neg hp1]
        case hy =>
          intro d hd
          cases hpr : pend.reverse with
          | nil =>
            rw [hpr] at hd
            simp only [List.nil_append, List.head?_cons, Option.some.injEq] at hd
            rw [← hd]
            exact hp1
          | cons f fs =>
            rw [hpr] at hd
            simp only [List.cons_append, List.head?_cons, Option.some.injEq] at hd
            rw [← hd]
            exact hpendrev f (by rw [hpr]; simp)
      · rw [if_neg hct]
        by_cases pc : p c = true
        · cases hpd : pend with
          | nil =>
            simp only [List.reverse_nil, List.nil_append]
            have e1 : r ++ c :: delWsBeforeAux trig [] cs
                = (r ++ [c]) ++ delWsBeforeAux trig [] cs := by simp
            rw [e1]
            have hrc : ∀ d ∈ r ++ [c], p d = true := by
              intro d hd
              rcases List.mem_append.mp hd with h1 | h1
              · exact hr d h1
              · have : d = c := by simpa using h1
                rw [this]; exact pc
            have := ih [] (r ++ [c]) (by simp) hrc
            simp only [List.reverse_nil, List.append_nil] at this
            rw [this]
            simp [List.append_assoc]
          | cons e es =>
            have hple : ∀ d, pend.reverse.getLast? = some d → p d = false := by
              intro d hd
              rw [getLast?_reverse_eq_head?, hpd] at hd
              simp only [List.head?_cons, Option.some.injEq] at hd
              rw [← hd]
              exact hp2 e (hpend e (by rw [hpd]; simp))
            have hpne : pend.reverse ≠ [] := by simp [hpd]
            rw [← hpd]
            have split1 : runsP p (r ++ (pend.reverse ++ c :: delWsBeforeAux trig [] cs))
                = runsP p r ++ runsP p (c :: delWsBeforeAux trig [] cs) := by
              rw [← List.append_assoc,
                @runsP_append_left p (r ++ pend.reverse) (c :: delWsBeforeAux trig [] cs)
                  ?hne ?hlast]
              · rw [runsP_append_allNeg hpendrev]
              case hne => simp [hpd]
              case hlast =>
                intro d hd
                rw [List.getLast?_append_of_ne_nil r hpne] at hd
                exact hple d hd
            have split2 : runsP p (r ++ pend.reverse ++ c :: cs)
                = runsP p r ++ runsP p (c :: cs) := by
              rw [@runsP_append_left p (r ++ pend.reverse) (c :: cs) ?hne ?hlast]
              · rw [runsP_append_allNeg hpendrev]
              case hne => simp [hpd]
              case hlast =>
                intro d hd
                rw [List.getLast?_append_of_ne_nil r hpne] at hd
                exact hple d hd
            rw [split1, split2]
            have := ih [] [c] (by simp)
              (by intro d hd
                  have : d = c := by simpa using hd
                  rw [this]; exact pc)
            simp only [List.reverse_nil, List.append_nil] at this
            rw [show ([c] : List Char) ++ delWsBeforeAux trig [] cs
                = c :: delWsBeforeAux trig [] cs from rfl] at this
            rw [show ([c] : List Char) ++ cs = c :: cs from rfl] at this
            rw [this]
        · have pc' : p c = false := by simpa using pc
          rw [← List.append_assoc, runsP_append_cons_neg pc', hih00]
          rw [List.append_assoc, ← List.append_assoc, runsP_append_cons_neg pc']

theorem runsP_delWsBefore {p : Char → Bool} {trig : Char} {cs : List Char}
    (hp1 : p trig = false) (hp2 : ∀ c, isWs c = true → p c = false) :
    runsP p (delWsBefore trig cs) = runsP p cs := by
  have := runsP_delWsBeforeAux hp1 hp2 cs [] [] (by simp) (by simp)
  simpa [delWsBefore] using this

/-! ## Character-class facts and decimal rendering lemmas -/

/-- The character alphabet that normalized logic output is built from. -/
def logicAlphaChars : List Char :=
  ['0', '1', '2', '3', '4', '5', '6', '7', '8', '9',
   'A', 'N', 'D', 'O', 'R', '(', ')', ' ']

theorem alpha_toUpper_fix : ∀ c ∈ logicAlphaChars, ∀ u ∈ (['A', 'N', 'D', 'O', 'R'] : List Char),
    c.toUpper = u → c = u := by decide

theorem digCh_isDigit (d : Nat) : (digCh d).isDigit = true := by
  unfold digCh
  split_ifs <;> decide

theorem digCh_mem_alpha (d : Nat) : digCh d ∈ logicAlphaChars := by
  unfold digCh
  split_ifs <;> decide

theorem ntdRev_all_digit (fuel : Nat) : ∀ n, ∀ c ∈ ntdRev fuel n, c.isDigit = true := by
  induction fuel with
  | zero => intro n c hc; simp [ntdRev] at hc
  | succ f ih =>
    intro n c hc
    rw [ntdRev] at hc
    by_cases h : n < 10
    · rw [if_pos h] at hc
      have : c = digCh n := by simpa using hc
      rw [this]; exact digCh_isDigit n
    · rw [if_neg h] at hc
      rcases List.mem_cons.mp hc with h1 | h1
      · rw [h1]; exact digCh_isDigit (n % 10)
      · exact ih (n / 10) c h1

theorem ntdRev_ne_nil (fuel n : Nat) (h : 0 < fuel) : ntdRev fuel n ≠ [] := by
  cases fuel with
  | zero => exact absurd h (by simp)
  | succ f =>
    rw [ntdRev]
    by_cases hn : n < 10
    · simp [hn]
    · simp [hn]

theorem natToDigits_all_digit (n : Nat) : ∀ c ∈ natToDigits n, c.isDigit = true := by
  intro c hc
  exact ntdRev_all_digit (n + 1) n c (List.mem_reverse.mp hc)

theorem natToDigits_ne_nil (n : Nat) : natToDigits n ≠ [] := by
  rw [natToDigits]
  simp only [ne_eq, List.reverse_eq_nil_iff]
  exact ntdRev_ne_nil (n + 1) n (by omega)

theorem isDigitStr_natToDigits (n : Nat) : isDigitStr (natToDigits n) = true := by
  rw [isDigitStr, Bool.and_eq_true, List.all_eq_true]
  constructor
  · simp [List.isEmpty_iff, natToDigits_ne_nil n]
  · exact natToDigits_all_digit n

theorem digit_mem_alpha {c : Char} (hd : c.isDigit = true) : c ∈ logicAlphaChars := by
  have h48 : 48 ≤ c.toNat ∧ c.toNat ≤ 57 := by
    rw [Char.isDigit] at hd
    simp only [Bool.and_eq_true, decide_eq_true_eq] at hd
    exact hd
  have hofnat : Char.ofNat c.toNat = c := Char.ofNat_toNat c
  obtain ⟨m, hmeq, hm1, hm2⟩ : ∃ m, m = c.toNat ∧ 48 ≤ m ∧ m ≤ 57 :=
    ⟨c.toNat, rfl, h48.1, h48.2⟩
  rw [← hofnat, ← hmeq]
  interval_cases m <;> decide

theorem natToDigits_mem_alpha (n : Nat) : ∀ c ∈ natToDigits n, c ∈ logicAlphaChars := by
  intro c hc
  exact digit_mem_alpha (natToDigits_all_digit n c hc)

theorem digVal_digCh (d : Nat) (h : d < 10) : digVal (digCh d) = d := by
  interval_cases d <;> decide

theorem natOfDigits_append (xs c) : natOfDigits (xs ++ [c]) = 10 * natOfDigits xs + digVal c := by
  rw [natOfDigits, List.foldl_append]
  rfl

theorem natOfDigits_ntdRev (fuel : Nat) :
    ∀ n, n < fuel → natOfDigits (ntdRev fuel n).reverse = n := by
  induction fuel with
  | zero => intro n hn; omega
  | succ f ih =>
    intro n hn
    rw [ntdRev]
    by_cases h : n < 10
    · rw [if_pos h]
      simp only [List.reverse_singleton]
      rw [show natOfDigits [digCh n] = natOfDigits ([] ++ [digCh n]) from rfl,
        natOfDigits_append]
      rw [digVal_digCh n h,
        show natOfDigits ([] : List Char) = 0 from rfl]
      omega
    · rw [if_neg h]
      rw [List.reverse_cons, natOfDigits_append]
      have hdiv : n / 10 < f := by omega
      rw [ih (n / 10) hdiv, digVal_digCh (n % 10) (by omega)]
      omega

theorem natOfDigits_natToDigits (n : Nat) : natOfDigits (natToDigits n) = n := by
  rw [natToDigits]
  exact natOfDigits_ntdRev (n + 1) n (by omega)

theorem natToDigits_injective {a b : Nat} (h : natToDigits a = natToDigits b) : a = b := by
  have h2 := congrArg natOfDigits h
  rwa [natOfDigits_natToDigits, natOfDigits_natToDigits] at h2

theorem ws_not_digit : ∀ c : Char, isWs c = true → c.isDigit = false := by
  intro c h
  rw [isWs] at h
  simp only [Bool.or_eq_true, beq_iff_eq] at h
  rcases h with ((((h | h) | h) | h) | h) | h <;> subst h <;> decide

theorem ws_not_word : ∀ c : Char, isWs c = true → isWordChar c = false := by
  intro c h
  rw [isWs] at h
  simp only [Bool.or_eq_true, beq_iff_eq] at h
  rcases h with ((((h | h) | h) | h) | h) | h <;> subst h <;> decide

theorem digit_is_word {c : Char} (h : c.isDigit = true) : isWordChar c = true := by
  rw [isWordChar, h]
  simp

/-! ## Decomposition of the operator-stripping substitutions -/

theorem mem_of_takeWhile {p : Char → Bool} {l : List Char} :
    ∀ c ∈ l.takeWhile p, p c = true := by
  intro c hc
  exact List.mem_takeWhile_imp hc

/-- Either `stripTrailOpLogic` leaves the string unchanged, or the string
decomposes as `pre ++ op ++ ws` with a word boundary before the operator,
and the result is `pre`. -/
theorem stripTrailOpLogic_spec (cs : List Char) :
    stripTrailOpLogic cs = cs ∨
    ∃ pre op ws, cs = pre ++ op ++ ws ∧ stripTrailOpLogic cs = pre
      ∧ (op.map Char.toUpper = ['A', 'N', 'D'] ∨ op.map Char.toUpper = ['O', 'R'])
      ∧ (∀ c ∈ ws, isWs c = true)
      ∧ (∀ c, pre.getLast? = some c → isWordChar c = false) := by
  have hsplit : cs = ((cs.reverse.dropWhile isWs).reverse) ++ ((cs.reverse.takeWhile isWs).reverse) := by
    conv_lhs => rw [← List.reverse_reverse cs]
    rw [← List.reverse_append, List.takeWhile_append_dropWhile]
  have hws : ∀ c ∈ (cs.reverse.takeWhile isWs).reverse, isWs c = true := by
    intro c hc
    exact mem_of_takeWhile c (List.mem_reverse.mp hc)
  rw [stripTrailOpLogic]
  set r1 := cs.reverse.dropWhile isWs with hr1
  by_cases h3 : (r1.take 3).map Char.toUpper = ['D', 'N', 'A']
  · rw [if_pos h3]
    by_cases hb : (match (r1.drop 3).head? with
        | none => true | some d => !isWordChar d) = true
    · rw [if_pos hb]
      right
      refine ⟨(r1.drop 3).reverse, (r1.take 3).reverse,
        (cs.reverse.takeWhile isWs).reverse, ?_, rfl, ?_, hws, ?_⟩
      · conv_lhs => rw [hsplit]
        rw [show r1.reverse = (r1.take 3 ++ r1.drop 3).reverse by rw [List.take_append_drop]]
        rw [List.reverse_append, List.append_assoc]
      · left
        rw [List.map_reverse, h3]
        rfl
      · intro c hc
        rw [getLast?_reverse_eq_head?] at hc
        rw [hc] at hb
        simpa using hb
    · rw [if_neg hb]
      left
      rfl
  · rw [if_neg h3]
    by_cases h2 : (r1.take 2).map Char.toUpper = ['R', 'O']
    · rw [if_pos h2]
      by_cases hb : (match (r1.drop 2).head? with
          | none => true | some d => !isWordChar d) = true
      · rw [if_pos hb]
        right
        refine ⟨(r1.drop 2).reverse, (r1.take 2).reverse,
          (cs.reverse.takeWhile isWs).reverse, ?_, rfl, ?_, hws, ?_⟩
        · conv_lhs => rw [hsplit]
          rw [show r1.reverse = (r1.take 2 ++ r1.drop 2).reverse by rw [List.take_append_drop]]
          rw [List.reverse_append, List.append_assoc]
        · right
          rw [List.map_reverse, h2]
          rfl
        · intro c hc
          rw [getLast?_reverse_eq_head?] at hc
          rw [hc] at hb
          simpa using hb
      · rw [if_neg hb]
        left
        rfl
    · rw [if_neg h2]
      left
      rfl

/-- Either `stripLeadOpLogic` leaves the string unchanged, or the string
decomposes as `ws1 ++ op ++ wsr ++ rest` with `wsr` nonempty, and the
result is `rest`. -/
theorem stripLeadOpLogic_spec (cs : List Char) :
    stripLeadOpLogic cs = cs ∨
    ∃ ws1 op wsr rest, cs = ws1 ++ op ++ wsr ++ rest ∧ stripLeadOpLogic cs = rest
      ∧ (op.map Char.toUpper = ['A', 'N', 'D'] ∨ op.map Char.toUpper = ['O', 'R'])
      ∧ (∀ c ∈ ws1, isWs c = true) ∧ (∀ c ∈ wsr, isWs c = true) ∧ wsr ≠ [] := by
  have hsplit : cs = cs.takeWhile isWs ++ cs.dropWhile isWs :=
    (List.takeWhile_append_dropWhile _ _).symm
  have hws1 : ∀ c ∈ cs.takeWhile isWs, isWs c = true := mem_of_takeWhile
  rw [stripLeadOpLogic]
  set t := cs.dropWhile isWs with ht
  by_cases h3 : (t.take 3).map Char.toUpper = ['A', 'N', 'D']
  · rw [if_pos h3]
    by_cases hb : (match (t.drop 3).head? with
        | none => false | some d => isWs d) = true
    · rw [if_pos hb]
      right
      refine ⟨cs.takeWhile isWs, t.take 3, (t.drop 3).takeWhile isWs,
        (t.drop 3).dropWhile isWs, ?_, rfl, Or.inl h3, hws1, mem_of_takeWhile, ?wsr3⟩
      case wsr3 =>
        cases hd : (t.drop 3) with
        | nil => rw [hd] at hb; simp at hb
        | cons d ds =>
          rw [hd] at hb
          simp only [List.head?_cons] at hb
          simp [List.takeWhile, hb]
      conv_lhs => rw [hsplit]
      rw [show t = t.take 3 ++ t.drop 3 by rw [List.take_append_drop]]
      conv_lhs => rw [show t.drop 3 = (t.drop 3).takeWhile isWs ++ (t.drop 3).dropWhile isWs
        from (List.takeWhile_append_dropWhile _ _).symm]
      simp [List.append_assoc]
    · rw [if_neg hb]
      left
      rfl
  · rw [if_neg h3]
    by_cases h2 : (t.take 2).map Char.toUpper = ['O', 'R']
    · rw [if_pos h2]
      by_cases hb : (match (t.drop 2).head? with
          | none => false | some d => isWs d) = true
      · rw [if_pos hb]
        right
        refine ⟨cs.takeWhile isWs, t.take 2, (t.drop 2).takeWhile isWs,
          (t.drop 2).dropWhile isWs, ?_, rfl, Or.inr h2, hws1, mem_of_takeWhile, ?wsr2⟩
        case wsr2 =>
          cases hd : (t.drop 2) with
          | nil => rw [hd] at hb; simp at hb
          | cons d ds =>
            rw [hd] at hb
            simp only [List.head?_cons] at hb
            simp [List.takeWhile, hb]
        conv_lhs => rw [hsplit]
        rw [show t = t.take 2 ++ t.drop 2 by rw [List.take_append_drop]]
        conv_lhs => rw [show t.drop 2 = (t.drop 2).takeWhile isWs ++ (t.drop 2).dropWhile isWs
          from (List.takeWhile_append_dropWhile _ _).symm]
        simp [List.append_assoc]
      · rw [if_neg hb]
        left
        rfl
    · rw [if_neg h2]
      left
      rfl

/-- `pyStripL` removes a whitespace prefix and suffix. -/
theorem pyStripL_spec (cs : List Char) :
    ∃ wsA wsB, cs = wsA ++ pyStripL cs ++ wsB
      ∧ (∀ c ∈ wsA, isWs c = true) ∧ (∀ c ∈ wsB, isWs c = true) := by
  refine ⟨cs.takeWhile isWs, (((cs.dropWhile isWs).reverse).takeWhile isWs).reverse,
    ?_, mem_of_takeWhile, ?_⟩
  · have e2 : (cs.dropWhile isWs).reverse
        = (cs.dropWhile isWs).reverse.takeWhile isWs
          ++ (cs.dropWhile isWs).reverse.dropWhile isWs :=
      (List.takeWhile_append_dropWhile _ _).symm
    have e3 := congrArg List.reverse e2
    rw [List.reverse_reverse, List.reverse_append] at e3
    have hpy : pyStripL cs = ((cs.dropWhile isWs).reverse.dropWhile isWs).reverse := rfl
    calc cs = cs.takeWhile isWs ++ cs.dropWhile isWs :=
          (List.takeWhile_append_dropWhile _ _).symm
      _ = cs.takeWhile isWs ++ (((cs.dropWhile isWs).reverse.dropWhile isWs).reverse
            ++ ((cs.dropWhile isWs).reverse.takeWhile isWs).reverse) := by rw [← e3]
      _ = cs.takeWhile isWs ++ pyStripL cs
            ++ ((cs.dropWhile isWs).reverse.takeWhile isWs).reverse := by
          rw [hpy, List.append_assoc]
  · intro c hc
    exact mem_of_takeWhile c (List.mem_reverse.mp hc)

theorem runsP_pyStripL {p : Char → Bool} (hp2 : ∀ c, isWs c = true → p c = false)
    (cs : List Char) : runsP p (pyStripL cs) = runsP p cs := by
  obtain ⟨wsA, wsB, hcs, hA, hB⟩ := pyStripL_spec cs
  rw [List.append_assoc] at hcs
  conv_rhs => rw [hcs]
  rw [runsP_nonP_pre wsA (fun c hc => hp2 c (hA c hc)),
    runsP_append_allNeg (fun c hc => hp2 c (hB c hc))]

/-- Recover the literal operator characters from the alphabet constraint. -/
theorem op_literal {op target : List Char}
    (hsub : ∀ c ∈ op, c ∈ logicAlphaChars)
    (htl : ∀ u ∈ target, u ∈ (['A', 'N', 'D', 'O', 'R'] : List Char))
    (h : op.map Char.toUpper = target) : op = target := by
  induction op generalizing target with
  | nil => rw [← h]; rfl
  | cons a t ih =>
    cases target with
    | nil => simp at h
    | cons u us =>
      simp only [List.map_cons, List.cons.injEq] at h
      have ha : a = u :=
        alpha_toUpper_fix a (hsub a (by simp)) u (htl u (by simp)) h.1
      rw [ha, ih (fun c hc => hsub c (by simp [hc])) (fun v hv => htl v (by simp [hv])) h.2]

/-- The two operator literals, as derived from a strip decomposition. -/
theorem op_literal_of_strip {op : List Char}
    (hsub : ∀ c ∈ op, c ∈ logicAlphaChars)
    (hop : op.map Char.toUpper = ['A', 'N', 'D'] ∨ op.map Char.toUpper = ['O', 'R']) :
    op = ['A', 'N', 'D'] ∨ op = ['O', 'R'] := by
  rcases hop with h | h
  · exact Or.inl (op_literal hsub (by decide) h)
  · exact Or.inr (op_literal hsub (by decide) h)

theorem op_chars_not_digit {op : List Char}
    (hop : op = ['A', 'N', 'D'] ∨ op = ['O', 'R']) :
    ∀ c ∈ op, c.isDigit = false := by
  rcases hop with h | h <;> rw [h] <;> decide

theorem op_chars_word {op : List Char}
    (hop : op = ['A', 'N', 'D'] ∨ op = ['O', 'R']) :
    ∀ c ∈ op, isWordChar c = true := by
  rcases hop with h | h <;> rw [h] <;> decide

theorem op_head_not_digit {op : List Char} (ws rest : List Char)
    (hop : op = ['A', 'N', 'D'] ∨ op = ['O', 'R']) :
    ∀ c, (op ++ ws ++ rest).head? = some c → c.isDigit = false := by
  rcases hop with h | h <;> rw [h] <;> intro c hc <;>
    simp only [List.cons_append, List.head?_cons, Option.some.injEq] at hc <;>
    rw [← hc] <;> decide

/-! ## Maximal-run behaviour of the operator strips -/

theorem digitRuns_stripTrailOpLogic (cs : List Char)
    (hsub : ∀ c ∈ cs, c ∈ logicAlphaChars) :
    runsP Char.isDigit (stripTrailOpLogic cs) = runsP Char.isDigit cs := by
  rcases stripTrailOpLogic_spec cs with h | ⟨pre, op, ws, hcs, hres, hop, hws0, _⟩
  · rw [h]
  · have hoplit := op_literal_of_strip
      (fun c hc => hsub c (by rw [hcs]; simp [hc])) hop
    rw [hres]
    conv_rhs => rw [hcs, List.append_assoc]
    have hopne : op ≠ [] := by rcases hoplit with h | h <;> rw [h] <;> simp
    have hy : ∀ c, (op ++ ws).head? = some c → Char.isDigit c = false := by
      have := op_head_not_digit ws [] hoplit
      intro c hc
      refine this c ?_
      rw [List.append_nil]
      exact hc
    have hneg : ∀ c ∈ op ++ ws, Char.isDigit c = false := by
      intro c hc
      rcases List.mem_append.mp hc with h1 | h1
      · exact op_chars_not_digit hoplit c h1
      · exact ws_not_digit c (hws0 c h1)
    rw [runsP_append_right hy, runsP_allNeg hneg, List.append_nil]

theorem wordRuns_stripTrailOpLogic_sub (cs : List Char) :
    ∀ t ∈ runsP isWordChar (stripTrailOpLogic cs), t ∈ runsP isWordChar cs := by
  rcases stripTrailOpLogic_spec cs with h | ⟨pre, op, ws, hcs, hres, _, _, hpl⟩
  · rw [h]; exact fun t ht => ht
  · intro t ht
    rw [hres] at ht
    cases hpre : pre with
    | nil =>
      rw [hpre] at ht
      simp [runsP, runsPAux, emitAcc] at ht
    | cons q qs =>
      rw [hcs, List.append_assoc,
        runsP_append_left (by rw [hpre]; simp) hpl]
      exact List.mem_append_left _ ht

theorem digitRuns_stripLeadOpLogic (cs : List Char)
    (hsub : ∀ c ∈ cs, c ∈ logicAlphaChars) :
    runsP Char.isDigit (stripLeadOpLogic cs) = runsP Char.isDigit cs := by
  rcases stripLeadOpLogic_spec cs with h | ⟨ws1, op, wsr, rest, hcs, hres, hop, hws1, hwsr, _⟩
  · rw [h]
  · have hoplit := op_literal_of_strip
      (fun c hc => hsub c (by rw [hcs]; simp [hc])) hop
    rw [hres]
    conv_rhs => rw [hcs, List.append_assoc, List.append_assoc]
    rw [runsP_nonP_pre ws1 (fun c hc => ws_not_digit c (hws1 c hc)),
      runsP_nonP_pre op (op_chars_not_digit hoplit),
      runsP_nonP_pre wsr (fun c hc => ws_not_digit c (hwsr c hc))]

theorem wordRuns_stripLeadOpLogic_sub (cs : List Char) :
    ∀ t ∈ runsP isWordChar (stripLeadOpLogic cs), t ∈ runsP isWordChar cs := by
  rcases stripLeadOpLogic_spec cs with h | ⟨ws1, op, wsr, rest, hcs, hres, hop, hws1, hwsr, hwne⟩
  · rw [h]; exact fun t ht => ht
  · intro t ht
    rw [hres] at ht
    rw [hcs, List.append_assoc, List.append_assoc,
      runsP_nonP_pre ws1 (fun c hc => ws_not_word c (hws1 c hc))]
    have hy : ∀ c, (wsr ++ rest).head? = some c → isWordChar c = false := by
      intro c hc
      cases hw : wsr with
      | nil => exact absurd hw hwne
      | cons w ws' =>
        rw [hw] at hc
        simp only [List.cons_append, List.head?_cons, Option.some.injEq] at hc
        rw [← hc]
        exact ws_not_word w (hwsr w (by rw [hw]; simp))
    rw [runsP_append_right hy]
    refine List.mem_append_right _ ?_
    rwa [runsP_nonP_pre wsr (fun c hc => ws_not_word c (hwsr c hc))]

/-! ## Character membership through the assembly pipeline -/

theorem mem_interSpace {x : Char} :
    ∀ (ts : List (List Char)), x ∈ interSpace ts → x = ' ' ∨ ∃ t ∈ ts, x ∈ t := by
  intro ts
  induction ts with
  | nil => intro h; simp [interSpace] at h
  | cons t ts ih =>
    intro h
    cases ts with
    | nil =>
      rw [show interSpace [t] = t from rfl] at h
      exact Or.inr ⟨t, by simp, h⟩
    | cons t2 rest =>
      rw [show interSpace (t :: t2 :: rest) = t ++ ' ' :: interSpace (t2 :: rest) from rfl] at h
      rcases List.mem_append.mp h with h1 | h1
      · exact Or.inr ⟨t, by simp, h1⟩
      · rcases List.mem_cons.mp h1 with h2 | h2
        · exact Or.inl h2
        · rcases ih h2 with h3 | ⟨u, hu, hxu⟩
          · exact Or.inl h3
          · exact Or.inr ⟨u, by simp [hu], hxu⟩

theorem mem_delWsAfterAux {trig : Char} {x : Char} :
    ∀ (cs : List Char) (mode : Bool), x ∈ delWsAfterAux trig mode cs → x ∈ cs := by
  intro cs
  induction cs with
  | nil => intro mode h; simp [delWsAfterAux] at h
  | cons c cs ih =>
    intro mode h
    rw [delWsAfterAux_cons] at h
    by_cases hmw : (mode && isWs c) = true
    · rw [if_pos hmw] at h
      exact List.mem_cons_of_mem c (ih true h)
    · rw [if_neg hmw] at h
      rcases List.mem_cons.mp h with h1 | h1
      · simp [h1]
      · exact List.mem_cons_of_mem c (ih _ h1)

theorem mem_delWsBeforeAux {trig : Char} {x : Char} :
    ∀ (cs pend : List Char), x ∈ delWsBeforeAux trig pend cs → x ∈ pend ∨ x ∈ cs := by
  intro cs
  induction cs with
  | nil =>
    intro pend h
    rw [show delWsBeforeAux trig pend [] = pend.reverse from rfl] at h
    exact Or.inl (List.mem_reverse.mp h)
  | cons c cs ih =>
    intro pend h
    rw [delWsBeforeAux_cons] at h
    by_cases hw : isWs c = true
    · rw [if_pos hw] at h
      rcases ih (c :: pend) h with h1 | h1
      · rcases List.mem_cons.mp h1 with h2 | h2
        · exact Or.inr (by simp [h2])
        · exact Or.inl h2
      · exact Or.inr (List.mem_cons_of_mem c h1)
    · rw [if_neg hw] at h
      by_cases hct : (c == trig) = true
      · rw [if_pos hct] at h
        rcases List.mem_cons.mp h with h1 | h1
        · exact Or.inr (by simp [h1])
        · rcases ih [] h1 with h2 | h2
          · simp at h2
          · exact Or.inr (List.mem_cons_of_mem c h2)
      · rw [if_neg hct] at h
        rcases List.mem_append.mp h with h1 | h1
        · exact Or.inl (List.mem_reverse.mp h1)
        · rcases List.mem_cons.mp h1 with h2 | h2
          · exact Or.inr (by simp [h2])
          · rcases ih [] h2 with h3 | h3
            · simp at h3
            · exact Or.inr (List.mem_cons_of_mem c h3)

theorem mem_stripTrailOpLogic {x : Char} {cs : List Char}
    (h : x ∈ stripTrailOpLogic cs) : x ∈ cs := by
  rcases stripTrailOpLogic_spec cs with he | ⟨pre, op, ws, hcs, hres, _, _, _⟩
  · rwa [he] at h
  · rw [hres] at h
    rw [hcs]
    simp [h]

theorem mem_stripLeadOpLogic {x : Char} {cs : List Char}
    (h : x ∈ stripLeadOpLogic cs) : x ∈ cs := by
  rcases stripLeadOpLogic_spec cs with he | ⟨ws1, op, wsr, rest, hcs, hres, _, _, _, _⟩
  · rwa [he] at h
  · rw [hres] at h
    rw [hcs]
    simp [h]

theorem mem_pyStripL {x : Char} {cs : List Char} (h : x ∈ pyStripL cs) : x ∈ cs := by
  obtain ⟨wsA, wsB, hcs, _, _⟩ := pyStripL_spec cs
  rw [hcs]
  simp [h]

theorem mem_assembleLogic {x : Char} {ts : List (List Char)}
    (hts : ∀ t ∈ ts, ∀ c ∈ t, c ∈ logicAlphaChars)
    (h : x ∈ assembleLogic ts) : x ∈ logicAlphaChars := by
  rw [assembleLogic] at h
  have h1 := mem_stripTrailOpLogic (mem_stripLeadOpLogic (mem_pyStripL h))
  rcases mem_delWsBeforeAux _ [] h1 with h2 | h2
  · simp at h2
  · have h3 := mem_delWsAfterAux _ false h2
    rcases mem_interSpace ts h3 with h4 | ⟨t, ht, hxt⟩
    · rw [h4]; decide
    · exact hts t ht x hxt

/-! ## Maximal runs of the fully assembled logic text -/

/-- Shape of every token that the processing loop can emit. -/
def logicTokShape (t : List Char) : Prop :=
  (t = ['A', 'N', 'D'] ∨ t = ['O', 'R'] ∨ t = ['('] ∨ t = [')'])
  ∨ ∃ v : Nat, t = natToDigits v

theorem tok_chars_of_shape {t : List Char} (h : logicTokShape t) :
    ∀ c ∈ t, c ∈ logicAlphaChars := by
  rcases h with (h | h | h | h) | ⟨v, h⟩ <;> rw [h]
  · decide
  · decide
  · decide
  · decide
  · exact natToDigits_mem_alpha v

theorem tok_dichot_digit_of_shape {t : List Char} (h : logicTokShape t) :
    tokDichot Char.isDigit t := by
  rcases h with (h | h | h | h) | ⟨v, h⟩ <;> rw [h]
  · exact Or.inr (by decide)
  · exact Or.inr (by decide)
  · exact Or.inr (by decide)
  · exact Or.inr (by decide)
  · exact Or.inl ⟨natToDigits_ne_nil v, natToDigits_all_digit v⟩

theorem tok_dichot_word_of_shape {t : List Char} (h : logicTokShape t) :
    tokDichot isWordChar t := by
  rcases h with (h | h | h | h) | ⟨v, h⟩ <;> rw [h]
  · exact Or.inl ⟨by simp, by decide⟩
  · exact Or.inl ⟨by simp, by decide⟩
  · exact Or.inr (by decide)
  · exact Or.inr (by decide)
  · exact Or.inl ⟨natToDigits_ne_nil v,
      fun c hc => digit_is_word (natToDigits_all_digit v c hc)⟩

theorem digitRuns_assemble (ts : List (List Char))
    (hshape : ∀ t ∈ ts, logicTokShape t) :
    runsP Char.isDigit (assembleLogic ts) = ts.filter isDigitStr := by
  have hcJoin : ∀ c ∈ interSpace ts, c ∈ logicAlphaChars := by
    intro c hc
    rcases mem_interSpace ts hc with h | ⟨t, ht, hct⟩
    · rw [h]; decide
    · exact tok_chars_of_shape (hshape t ht) c hct
  have hcX1 : ∀ c ∈ delWsAfter '(' (interSpace ts), c ∈ logicAlphaChars :=
    fun c hc => hcJoin c (mem_delWsAfterAux _ false hc)
  have hcX2 : ∀ c ∈ delWsBefore ')' (delWsAfter '(' (interSpace ts)), c ∈ logicAlphaChars := by
    intro c hc
    rcases mem_delWsBeforeAux _ [] hc with h | h
    · simp at h
    · exact hcX1 c h
  have hcX3 : ∀ c ∈ stripTrailOpLogic (delWsBefore ')' (delWsAfter '(' (interSpace ts))),
      c ∈ logicAlphaChars := fun c hc => hcX2 c (mem_stripTrailOpLogic hc)
  rw [assembleLogic, runsP_pyStripL ws_not_digit,
    digitRuns_stripLeadOpLogic _ hcX3,
    digitRuns_stripTrailOpLogic _ hcX2,
    runsP_delWsBefore (by decide) ws_not_digit,
    runsP_delWsAfter (by decide) ws_not_digit,
    runsP_interSpace (by decide) ts (fun t ht => tok_dichot_digit_of_shape (hshape t ht))]
  rfl

theorem wordRuns_assemble_sub (ts : List (List Char))
    (hshape : ∀ t ∈ ts, logicTokShape t) :
    ∀ u ∈ runsP isWordChar (assembleLogic ts),
      u ∈ ts.filter (fun t => !t.isEmpty && t.all isWordChar) := by
  have hcJoin : ∀ c ∈ interSpace ts, c ∈ logicAlphaChars := by
    intro c hc
    rcases mem_interSpace ts hc with h | ⟨t, ht, hct⟩
    · rw [h]; decide
    · exact tok_chars_of_shape (hshape t ht) c hct
  have hcX1 : ∀ c ∈ delWsAfter '(' (interSpace ts), c ∈ logicAlphaChars :=
    fun c hc => hcJoin c (mem_delWsAfterAux _ false hc)
  have hcX2 : ∀ c ∈ delWsBefore ')' (delWsAfter '(' (interSpace ts)), c ∈ logicAlphaChars := by
    intro c hc
    rcases mem_delWsBeforeAux _ [] hc with h | h
    · simp at h
    · exact hcX1 c h
  intro u hu
  rw [assembleLogic, runsP_pyStripL ws_not_word] at hu
  have hu2 := wordRuns_stripTrailOpLogic_sub _ u (wordRuns_stripLeadOpLogic_sub _ u hu)
  rw [runsP_delWsBefore (by decide) ws_not_word,
    runsP_delWsAfter (by decide) ws_not_word,
    runsP_interSpace (by decide) ts (fun t ht => tok_dichot_word_of_shape (hshape t ht))] at hu2
  exact hu2

/-! ## The token-processing loop of `update_logic` -/

theorem intToChars_of_le {v s : Nat} (h : s ≤ v) :
    intToChars ((v : Int) - (s : Int)) = natToDigits (v - s) := by
  have he : ((v : Int) - (s : Int)) = ((v - s : Nat) : Int) := by omega
  rw [he, intToChars, if_neg (by omega)]
  simp

theorem shift_le_self (removed : List Nat) (h1 : ∀ r ∈ removed, 1 ≤ r)
    (h2 : removed.Nodup) (v : Nat) :
    (removed.filter (fun r => r < v)).length ≤ v := by
  have hnd : (removed.filter (fun r => r < v)).Nodup := h2.filter _
  have hcard : (removed.filter (fun r => r < v)).toFinset.card
      = (removed.filter (fun r => r < v)).length := List.toFinset_card_of_nodup hnd
  have hsub : (removed.filter (fun r => r < v)).toFinset ⊆ Finset.Icc 1 v := by
    intro r hr
    rw [List.mem_toFinset, List.mem_filter] at hr
    have hge := h1 r hr.1
    have hlt : r < v := by simpa using hr.2
    rw [Finset.mem_Icc]
    omega
  have := Finset.card_le_card hsub
  rw [hcard, Nat.card_Icc] at this
  omega

theorem procTok_digit_none {removed : List Nat} {tok : List Char} {v : Nat}
    (hd : digitValOf tok = some v) (hc : removed.contains v = true) :
    procTok removed tok = none := by
  rw [digitValOf] at hd
  by_cases hdig : isDigitStr (pyStripL tok) = true
  · simp only [hdig, if_pos] at hd
    have hv : natOfDigits (pyStripL tok) = v := by simpa using hd
    rw [procTok]
    simp only [hdig, if_pos, hv, hc, if_true]
  · simp only [hdig] at hd
    simp at hd

theorem procTok_digit_some {removed : List Nat} {tok : List Char} {v : Nat}
    (hd : digitValOf tok = some v) (hc : removed.contains v = false) :
    procTok removed tok
      = some (intToChars ((v : Int) - ((removed.filter (fun r => r < v)).length : Int))) := by
  rw [digitValOf] at hd
  by_cases hdig : isDigitStr (pyStripL tok) = true
  · simp only [hdig, if_pos] at hd
    have hv : natOfDigits (pyStripL tok) = v := by simpa using hd
    rw [procTok]
    simp only [hdig, if_pos, hv, hc]
    simp
  · simp only [hdig] at hd
    simp at hd

theorem procTok_nondigit {removed : List Nat} {tok : List Char}
    (hd : digitValOf tok = none) :
    procTok removed tok = none
    ∨ procTok removed tok = some ['A', 'N', 'D'] ∨ procTok removed tok = some ['O', 'R']
    ∨ procTok removed tok = some ['('] ∨ procTok removed tok = some [')'] := by
  rw [digitValOf] at hd
  by_cases hdig : isDigitStr (pyStripL tok) = true
  · simp only [hdig, if_pos] at hd
    simp at hd
  · have hdig' : isDigitStr (pyStripL tok) = false := by simpa using hdig
    rw [procTok]
    simp only [hdig', Bool.false_eq_true, if_neg, not_false_iff]
    by_cases hcond : ((pyStripL tok).map Char.toUpper = ['A', 'N', 'D']
        ∨ (pyStripL tok).map Char.toUpper = ['O', 'R']
        ∨ pyStripL tok = ['('] ∨ pyStripL tok = [')'])
    · rw [if_pos hcond]
      rcases hcond with h | h | h | h
      · right; left; rw [h]
      · right; right; left; rw [h]
      · right; right; right; left; rw [h]; rfl
      · right; right; right; right; rw [h]; rfl
    · rw [if_neg hcond]
      left
      rfl

theorem mem_filterMap_procTok_shape {removed : List Nat}
    (h1 : ∀ r ∈ removed, 1 ≤ r) (h2 : removed.Nodup) {toks : List (List Char)} :
    ∀ t ∈ toks.filterMap (procTok removed), logicTokShape t := by
  intro t ht
  obtain ⟨tok, _, hp⟩ := List.mem_filterMap.mp ht
  cases hd : digitValOf tok with
  | none =>
    rcases @procTok_nondigit removed tok hd with h | h | h | h | h <;>
      rw [h] at hp
    · exact absurd hp (by simp)
    all_goals
      exact Or.inl (by
        have := Option.some.inj hp
        simp [← this])
  | some v =>
    cases hcv : removed.contains v with
    | true =>
      rw [procTok_digit_none hd hcv] at hp
      exact absurd hp (by simp)
    | false =>
      rw [procTok_digit_some hd hcv] at hp
      have ht2 := Option.some.inj hp
      right
      refine ⟨v - (removed.filter (fun r => r < v)).length, ?_⟩
      rw [← ht2, intToChars_of_le (shift_le_self removed h1 h2 v)]

theorem filterMap_procTok_digits (removed : List Nat)
    (h1 : ∀ r ∈ removed, 1 ≤ r) (h2 : removed.Nodup) :
    ∀ (toks : List (List Char)),
    (toks.filterMap (procTok removed)).filter isDigitStr
      = ((toks.filterMap digitValOf).filter (fun v => !(removed.contains v))).map
          (fun v => natToDigits (v - (removed.filter (fun r => r < v)).length)) := by
  intro toks
  induction toks with
  | nil => rfl
  | cons tok toks ih =>
    cases hd : digitValOf tok with
    | none =>
      rw [List.filterMap_cons_none hd]
      rcases @procTok_nondigit removed tok hd with h | h | h | h | h
      · rw [List.filterMap_cons_none h]; exact ih
      all_goals
        rw [List.filterMap_cons_some h, List.filter_cons_of_neg (by decide)]
        exact ih
    | some v =>
      rw [List.filterMap_cons_some hd]
      cases hcv : removed.contains v with
      | true =>
        rw [List.filterMap_cons_none (procTok_digit_none hd hcv),
          List.filter_cons_of_neg (by simp only [hcv, Bool.not_true]; simp)]
        exact ih
      | false =>
        rw [List.filterMap_cons_some (procTok_digit_some hd hcv),
          List.filter_cons_of_pos ?hpos, List.filter_cons_of_pos
            (by simp only [hcv, Bool.not_false]),
          List.map_cons]
        case hpos =>
          rw [intToChars_of_le (shift_le_self removed h1 h2 v)]
          exact isDigitStr_natToDigits _
        rw [intToChars_of_le (shift_le_self removed h1 h2 v), ih]

/-! ## The operator-collapse pass -/

theorem collapseOps_sub :
    ∀ (ts : List (List Char)) (prev : Option (List Char)),
    ∀ t ∈ collapseOps prev ts, t ∈ ts := by
  intro ts
  induction ts with
  | nil => intro prev t ht; simp [collapseOps] at ht
  | cons u ts ih =>
    intro prev t ht
    rw [collapseOps] at ht
    by_cases hc : (some u = prev ∧ (u = ['A', 'N', 'D'] ∨ u = ['O', 'R']))
    · rw [if_pos hc] at ht
      exact List.mem_cons_of_mem u (ih prev t ht)
    · rw [if_neg hc] at ht
      rcases List.mem_cons.mp ht with h | h
      · simp [h]
      · exact List.mem_cons_of_mem u (ih (some u) t h)

theorem collapseOps_filter_digit :
    ∀ (ts : List (List Char)) (prev : Option (List Char)),
    (collapseOps prev ts).filter isDigitStr = ts.filter isDigitStr := by
  intro ts
  induction ts with
  | nil => intro prev; rfl
  | cons u ts ih =>
    intro prev
    rw [collapseOps]
    by_cases hc : (some u = prev ∧ (u = ['A', 'N', 'D'] ∨ u = ['O', 'R']))
    · rw [if_pos hc]
      have hu : isDigitStr u = false := by
        rcases hc.2 with h | h <;> rw [h] <;> decide
      rw [List.filter_cons_of_neg (by simp [hu]), ih]
    · rw [if_neg hc]
      by_cases hu : isDigitStr u = true
      · rw [List.filter_cons_of_pos hu, List.filter_cons_of_pos hu, ih]
      · rw [List.filter_cons_of_neg (by simpa using hu),
          List.filter_cons_of_neg (by simpa using hu), ih]

/-! ## Sorting and deduplication membership -/

theorem mem_dedupFirst :
    ∀ (l : List (List Char)) (x : List Char), x ∈ dedupFirst l ↔ x ∈ l := by
  intro l
  induction l with
  | nil => intro x; simp [dedupFirst]
  | cons a l ih =>
    intro x
    rw [dedupFirst]
    by_cases hc : (dedupFirst l).contains a = true
    · rw [if_pos hc]
      have ha : a ∈ l := (ih a).mp (by simpa using hc)
      constructor
      · intro h; exact List.mem_cons_of_mem a ((ih x).mp h)
      · intro h
        rcases List.mem_cons.mp h with h1 | h1
        · rw [h1]; exact (ih a).mpr ha
        · exact (ih x).mpr h1
    · rw [if_neg hc]
      constructor
      · intro h
        rcases List.mem_cons.mp h with h1 | h1
        · simp [h1]
        · exact List.mem_cons_of_mem a ((ih x).mp h1)
      · intro h
        rcases List.mem_cons.mp h with h1 | h1
        · simp [h1]
        · exact List.mem_cons_of_mem a ((ih x).mpr h1)

theorem mem_insertByVal {x a : List Char} :
    ∀ {l : List (List Char)}, x ∈ insertByVal a l ↔ x = a ∨ x ∈ l := by
  intro l
  induction l with
  | nil => simp [insertByVal]
  | cons b l ih =>
    rw [insertByVal]
    by_cases hc : natOfDigits a ≤ natOfDigits b
    · rw [if_pos hc]
      simp
    · rw [if_neg hc]
      constructor
      · intro h
        rcases List.mem_cons.mp h with h1 | h1
        · simp [h1]
        · rcases ih.mp h1 with h2 | h2
          · exact Or.inl h2
          · exact Or.inr (by simp [h2])
      · intro h
        rcases h with h1 | h1
        · exact List.mem_cons_of_mem b (ih.mpr (Or.inl h1))
        · rcases List.mem_cons.mp h1 with h2 | h2
          · simp [h2]
          · exact List.mem_cons_of_mem b (ih.mpr (Or.inr h2))

theorem mem_sortByVal {x : List Char} :
    ∀ {l : List (List Char)}, x ∈ sortByVal l ↔ x ∈ l := by
  intro l
  induction l with
  | nil => simp [sortByVal]
  | cons a l ih =>
    rw [sortByVal, mem_insertByVal]
    rw [ih]
    simp

theorem dedupFirst_const {a : List Char} :
    ∀ {l : List (List Char)}, (∀ x ∈ l, x = a) → l ≠ [] → dedupFirst l = [a] := by
  intro l
  induction l with
  | nil => intro _ h; exact absurd rfl h
  | cons b l ih =>
    intro hall _
    have hb : b = a := hall b (by simp)
    rw [dedupFirst]
    cases hl : l with
    | nil =>
      simp [dedupFirst, hb]
    | cons c l2 =>
      have hrec : dedupFirst l = [a] := by
        refine ih (fun x hx => hall x (by simp [hx])) ?_
        rw [hl]
        simp
      rw [hl] at hrec
      rw [hrec]
      have hcont : ([a] : List (List Char)).contains b = true := by
        simp [hb]
      rw [if_pos hcont]

/-! ## Renumbering: the shifted survivors cover an initial segment -/

theorem shiftF_eq (removed : List Nat) (h2 : removed.Nodup) (v : Nat) :
    (removed.filter (fun r => r < v)).length
      = (removed.toFinset.filter (fun r => r < v)).card := by
  have hnd : (removed.filter (fun r => r < v)).Nodup := h2.filter _
  rw [← List.toFinset_card_of_nodup hnd]
  congr 1
  ext a
  simp [List.mem_filter]

theorem renumImageF :
    ∀ (n : Nat) (R : Finset Nat), R ⊆ Finset.Icc 1 n →
    Finset.image (fun v => v - (R.filter (fun r => r < v)).card) (Finset.Icc 1 n \ R)
      = Finset.Icc 1 (n - R.card) := by
  intro n
  induction n with
  | zero =>
    intro R hR
    have hRe : R = ∅ := by
      refine Finset.eq_empty_iff_forall_not_mem.mpr ?_
      intro x hx
      have := hR hx
      rw [Finset.mem_Icc] at this
      omega
    have h0 : Finset.Icc 1 0 = (∅ : Finset Nat) := by decide
    rw [hRe, h0]
    simp [h0]
  | succ n ih =>
    intro R hR
    by_cases hmem : (n + 1) ∈ R
    · have hR2 : R.erase (n + 1) ⊆ Finset.Icc 1 n := by
        intro r hr
        rw [Finset.mem_erase] at hr
        have hx := hR hr.2
        rw [Finset.mem_Icc] at hx ⊢
        have hne := hr.1
        omega
      have hsd : Finset.Icc 1 (n + 1) \ R = Finset.Icc 1 n \ R.erase (n + 1) := by
        ext a
        rw [Finset.mem_sdiff, Finset.mem_sdiff, Finset.mem_Icc, Finset.mem_Icc,
          Finset.mem_erase]
        constructor
        · rintro ⟨⟨ha1, ha2⟩, ha3⟩
          have hne : a ≠ n + 1 := by
            intro h
            rw [h] at ha3
            exact ha3 hmem
          exact ⟨⟨ha1, by omega⟩, fun h => ha3 h.2⟩
        · rintro ⟨⟨ha1, ha2⟩, ha3⟩
          exact ⟨⟨ha1, by omega⟩, fun hmemA => ha3 ⟨by omega, hmemA⟩⟩
      have hEq : Finset.image (fun v => v - (R.filter (fun r => r < v)).card)
            (Finset.Icc 1 n \ R.erase (n + 1))
          = Finset.image (fun v => v - ((R.erase (n + 1)).filter (fun r => r < v)).card)
            (Finset.Icc 1 n \ R.erase (n + 1)) := by
        apply Finset.image_congr
        intro a ha
        have ha2 : a ∈ Finset.Icc 1 n \ R.erase (n + 1) := ha
        rw [Finset.mem_sdiff, Finset.mem_Icc] at ha2
        have hfe : R.filter (fun r => r < a) = (R.erase (n + 1)).filter (fun r => r < a) := by
          ext r
          rw [Finset.mem_filter, Finset.mem_filter, Finset.mem_erase]
          constructor
          · rintro ⟨hr1, hr2⟩
            have : r ≠ n + 1 := by omega
            exact ⟨⟨this, hr1⟩, hr2⟩
          · rintro ⟨⟨_, hr1⟩, hr2⟩
            exact ⟨hr1, hr2⟩
        show a - (R.filter (fun r => r < a)).card
          = a - ((R.erase (n + 1)).filter (fun r => r < a)).card
        rw [hfe]
      have hcard : R.card = (R.erase (n + 1)).card + 1 := by
        rw [Finset.card_erase_of_mem hmem]
        have hpos : 1 ≤ R.card := Finset.card_pos.mpr ⟨n + 1, hmem⟩
        omega
      rw [hsd, hEq, ih (R.erase (n + 1)) hR2, hcard]
      congr 1
      omega
    · have hR2 : R ⊆ Finset.Icc 1 n := by
        intro r hr
        have hx := hR hr
        rw [Finset.mem_Icc] at hx ⊢
        have hne : r ≠ n + 1 := fun h => hmem (h ▸ hr)
        omega
      have hsd : Finset.Icc 1 (n + 1) \ R = insert (n + 1) (Finset.Icc 1 n \ R) := by
        ext a
        rw [Finset.mem_sdiff, Finset.mem_Icc, Finset.mem_insert, Finset.mem_sdiff,
          Finset.mem_Icc]
        constructor
        · rintro ⟨⟨ha1, ha2⟩, ha3⟩
          by_cases h : a = n + 1
          · exact Or.inl h
          · exact Or.inr ⟨⟨ha1, by omega⟩, ha3⟩
        · rintro (h | ⟨⟨ha1, ha2⟩, ha3⟩)
          · subst h
            exact ⟨⟨by omega, le_refl _⟩, hmem⟩
          · exact ⟨⟨ha1, by omega⟩, ha3⟩
      have hfull : R.filter (fun r => r < n + 1) = R := by
        apply Finset.filter_true_of_mem
        intro r hr
        have hx := hR2 hr
        rw [Finset.mem_Icc] at hx
        omega
      have hcardle : R.card ≤ n := by
        have := Finset.card_le_card hR2
        rw [Nat.card_Icc] at this
        omega
      rw [hsd, Finset.image_insert, hfull, ih R hR2]
      ext a
      rw [Finset.mem_insert, Finset.mem_Icc, Finset.mem_Icc]
      omega

theorem surv_toFinset (toks : List (List Char)) (removed : List Nat) (n : Nat)
    (hvals : (toks.filterMap digitValOf).toFinset = Finset.Icc 1 n) :
    ((toks.filterMap digitValOf).filter (fun v => !(removed.contains v))).toFinset
      = Finset.Icc 1 n \ removed.toFinset := by
  ext a
  simp only [List.mem_toFinset, Finset.mem_sdiff, List.mem_filter, ← hvals]
  constructor
  · rintro ⟨ha, hb⟩
    exact ⟨by simpa using ha, by simpa using hb⟩
  · rintro ⟨ha, hb⟩
    exact ⟨by simpa using ha, by simpa using hb⟩

theorem surv_image (toks : List (List Char)) (removed : List Nat) (n : Nat)
    (hsub : ∀ r ∈ removed, r ∈ Finset.Icc 1 n) (h2 : removed.Nodup)
    (hvals : (toks.filterMap digitValOf).toFinset = Finset.Icc 1 n) :
    Finset.image (fun v => v - (removed.filter (fun r => r < v)).length)
      (((toks.filterMap digitValOf).filter (fun v => !(removed.contains v))).toFinset)
      = Finset.Icc 1 (n - removed.length) := by
  have hfun : (fun v => v - (removed.filter (fun r => r < v)).length)
      = (fun v => v - (removed.toFinset.filter (fun r => r < v)).card) := by
    funext v
    rw [shiftF_eq removed h2]
  rw [surv_toFinset toks removed n hvals, hfun,
    renumImageF n removed.toFinset (fun r hr => hsub r (List.mem_toFinset.mp hr)),
    List.toFinset_card_of_nodup h2]

theorem collapsed_digits_eq (toks : List (List Char)) (removed : List Nat)
    (h1 : ∀ r ∈ removed, 1 ≤ r) (h2 : removed.Nodup) :
    (collapseOps none (toks.filterMap (procTok removed))).filter isDigitStr
      = ((toks.filterMap digitValOf).filter (fun v => !(removed.contains v))).map
          (fun v => natToDigits (v - (removed.filter (fun r => r < v)).length)) := by
  rw [collapseOps_filter_digit, filterMap_procTok_digits removed h1 h2]

theorem list_toFinset_map (l : List Nat) (f : Nat → Nat) :
    (l.map f).toFinset = l.toFinset.image f := by
  ext a
  simp [List.mem_map]

theorem digits_vals_toFinset (toks : List (List Char)) (removed : List Nat) (n : Nat)
    (hsub : ∀ r ∈ removed, r ∈ Finset.Icc 1 n) (h2 : removed.Nodup)
    (hvals : (toks.filterMap digitValOf).toFinset = Finset.Icc 1 n) :
    ((((collapseOps none (toks.filterMap (procTok removed))).filter isDigitStr).map
        natOfDigits)).toFinset = Finset.Icc 1 (n - removed.length) := by
  have h1 : ∀ r ∈ removed, 1 ≤ r := by
    intro r hr
    have hx := hsub r hr
    rw [Finset.mem_Icc] at hx
    exact hx.1
  rw [collapsed_digits_eq toks removed h1 h2, List.map_map]
  have hmap : (natOfDigits ∘ fun v => natToDigits (v - (removed.filter (fun r => r < v)).length))
      = fun v => v - (removed.filter (fun r => r < v)).length := by
    funext v
    simp [Function.comp, natOfDigits_natToDigits]
  rw [hmap, list_toFinset_map]
  exact surv_image toks removed n hsub h2 hvals

/-! ## Branch analysis for `updateLogicCore` -/

theorem updateLogicCore_eq (toks : List (List Char)) (removed : List Nat) :
    (updateLogicCore toks removed
        = assembleLogic (collapseOps none (toks.filterMap (procTok removed))))
    ∨ (updateLogicCore toks removed
          ∈ (collapseOps none (toks.filterMap (procTok removed))).filter isDigitStr
        ∧ ∀ x ∈ (collapseOps none (toks.filterMap (procTok removed))).filter isDigitStr,
            x = updateLogicCore toks removed) := by
  simp only [updateLogicCore]
  cases hU : sortByVal (dedupFirst
      ((collapseOps none (toks.filterMap (procTok removed))).filter isDigitStr)) with
  | nil =>
    left
    rw [if_neg (by decide)]
  | cons u us =>
    cases us with
    | nil =>
      right
      have hif : (if ([u] : List (List Char)).length = 1 then ([u] : List (List Char)).headD []
          else assembleLogic (collapseOps none (toks.filterMap (procTok removed)))) = u := by
        rw [if_pos (show ([u] : List (List Char)).length = 1 from rfl)]
        rfl
      rw [hif]
      have humem : u ∈ (collapseOps none (toks.filterMap (procTok removed))).filter
          isDigitStr := by
        have h1m : u ∈ sortByVal (dedupFirst
            ((collapseOps none (toks.filterMap (procTok removed))).filter isDigitStr)) := by
          rw [hU]
          simp
        exact (mem_dedupFirst _ u).mp (mem_sortByVal.mp h1m)
      refine ⟨humem, ?_⟩
      intro x hx
      have h1m := mem_sortByVal.mpr ((mem_dedupFirst _ x).mpr hx)
      rw [hU] at h1m
      simpa using h1m
    | cons u2 us2 =>
      left
      rw [if_neg (by simp only [List.length_cons]; omega)]

theorem updateLogicCore_of_unique (toks : List (List Char)) (removed : List Nat)
    {u : List Char}
    (hU : sortByVal (dedupFirst
        ((collapseOps none (toks.filterMap (procTok removed))).filter isDigitStr)) = [u]) :
    updateLogicCore toks removed = u := by
  simp only [updateLogicCore]
  rw [hU, if_pos (show ([u] : List (List Char)).length = 1 from rfl)]
  rfl

theorem update_logic_data (s : String) (removed : List Nat) :
    (update_logic s removed).data = updateLogicCore (logicSplit s.data) removed := by
  rw [update_logic]
  by_cases h : s = ""
  · subst h
    rw [if_pos rfl]
    have h0 : (logicSplit ("" : String).data).filterMap (procTok removed) = [] := rfl
    simp only [updateLogicCore, h0]
    rfl
  · rw [if_neg h]

theorem isDigitStr_props {cs : List Char} (h : isDigitStr cs = true) :
    cs ≠ [] ∧ ∀ c ∈ cs, c.isDigit = true := by
  rw [isDigitStr, Bool.and_eq_true] at h
  constructor
  · intro he
    rw [he] at h
    simp at h
  · intro c hc
    have h2 := h.2
    rw [List.all_eq_true] at h2
    exact h2 c hc

theorem toFinset_map_const {l : List (List Char)} {a : List Char} (hne : l ≠ [])
    (hall : ∀ x ∈ l, x = a) :
    (l.map natOfDigits).toFinset = {natOfDigits a} := by
  ext b
  rw [List.mem_toFinset, Finset.mem_singleton, List.mem_map]
  constructor
  · rintro ⟨x, hx, rfl⟩
    rw [hall x hx]
  · intro h
    cases l with
    | nil => exact absurd rfl hne
    | cons c l2 =>
      exact ⟨c, by simp, by rw [hall c (by simp), h]⟩

theorem updateLogicCore_digit_vals (toks : List (List Char)) (removed : List Nat) (n : Nat)
    (hsub : ∀ r ∈ removed, r ∈ Finset.Icc 1 n) (h2 : removed.Nodup)
    (hvals : (toks.filterMap digitValOf).toFinset = Finset.Icc 1 n) :
    ((digitRuns (updateLogicCore toks removed)).map natOfDigits).toFinset
      = Finset.Icc 1 (n - removed.length) := by
  have h1 : ∀ r ∈ removed, 1 ≤ r := by
    intro r hr
    have hx := hsub r hr
    rw [Finset.mem_Icc] at hx
    exact hx.1
  have hshapeC : ∀ t ∈ collapseOps none (toks.filterMap (procTok removed)), logicTokShape t :=
    fun t ht => mem_filterMap_procTok_shape h1 h2 t (collapseOps_sub _ _ t ht)
  have hchain := digits_vals_toFinset toks removed n hsub h2 hvals
  rcases updateLogicCore_eq toks removed with h | ⟨humem, hallx⟩
  · rw [h, digitRuns, digitRuns_assemble _ hshapeC]
    exact hchain
  · have hdigs := (List.mem_filter.mp humem).2
    obtain ⟨hne, hall⟩ := isDigitStr_props hdigs
    have hruns : digitRuns (updateLogicCore toks removed) = [updateLogicCore toks removed] := by
      rw [digitRuns]
      exact runsP_allP hall hne
    rw [hruns]
    have htf := toFinset_map_const (List.ne_nil_of_mem humem) hallx
    have hx : ({natOfDigits (updateLogicCore toks removed)} : Finset Nat)
        = Finset.Icc 1 (n - removed.length) := by
      rw [← htf]
      exact hchain
    simpa using hx

theorem updateLogicCore_alpha (toks : List (List Char)) (removed : List Nat)
    (h1 : ∀ r ∈ removed, 1 ≤ r) (h2 : removed.Nodup) :
    (∀ c ∈ updateLogicCore toks removed, c ∈ logicAlphaChars)
    ∧ ∀ u ∈ wordRuns (updateLogicCore toks removed),
        u = ['A', 'N', 'D'] ∨ u = ['O', 'R'] ∨ ∃ v : Nat, u = natToDigits v := by
  have hshapeC : ∀ t ∈ collapseOps none (toks.filterMap (procTok removed)), logicTokShape t :=
    fun t ht => mem_filterMap_procTok_shape h1 h2 t (collapseOps_sub _ _ t ht)
  rcases updateLogicCore_eq toks removed with h | ⟨humem, _⟩
  · rw [h]
    constructor
    · intro c hc
      exact mem_assembleLogic (fun t ht => tok_chars_of_shape (hshapeC t ht)) hc
    · intro u hu
      rw [wordRuns] at hu
      have hmem2 := wordRuns_assemble_sub _ hshapeC u hu
      have hsh := hshapeC u (List.mem_filter.mp hmem2).1
      have hword := (List.mem_filter.mp hmem2).2
      rcases hsh with (hq | hq | hq | hq) | ⟨v, hq⟩
      · exact Or.inl hq
      · exact Or.inr (Or.inl hq)
      · rw [hq] at hword
        exact absurd hword (by decide)
      · rw [hq] at hword
        exact absurd hword (by decide)
      · exact Or.inr (Or.inr ⟨v, hq⟩)
  · have hcol := (List.mem_filter.mp humem).1
    have hdigs := (List.mem_filter.mp humem).2
    obtain ⟨hne, hall⟩ := isDigitStr_props hdigs
    have hsh := hshapeC _ hcol
    constructor
    · intro c hc
      exact tok_chars_of_shape hsh c hc
    · intro u hu
      rw [wordRuns] at hu
      have hruns : runsP isWordChar (updateLogicCore toks removed)
          = [updateLogicCore toks removed] :=
        runsP_allP (fun c hc => digit_is_word (hall c hc)) hne
      rw [hruns] at hu
      have hu2 : u = updateLogicCore toks removed := by simpa using hu
      rcases hsh with (hq | hq | hq | hq) | ⟨v, hq⟩
      · exact Or.inl (hu2.trans hq)
      · exact Or.inr (Or.inl (hu2.trans hq))
      · rw [hq] at hdigs
        exact absurd hdigs (by decide)
      · rw [hq] at hdigs
        exact absurd hdigs (by decide)
      · exact Or.inr (Or.inr ⟨v, hu2.trans hq⟩)

theorem filterMap_procTok_no_digits {removed : List Nat} :
    ∀ {toks : List (List Char)},
    (∀ v ∈ toks.filterMap digitValOf, removed.contains v = true) →
    (toks.filterMap (procTok removed)).filter isDigitStr = [] := by
  intro toks
  induction toks with
  | nil => intro _; rfl
  | cons tok toks ih =>
    intro hall
    have htl : ∀ v ∈ toks.filterMap digitValOf, removed.contains v = true := by
      intro v hv
      cases hd : digitValOf tok with
      | none => exact hall v (by rw [List.filterMap_cons_none hd]; exact hv)
      | some w =>
        exact hall v (by rw [List.filterMap_cons_some hd]; exact List.mem_cons_of_mem _ hv)
    cases hd : digitValOf tok with
    | none =>
      rcases @procTok_nondigit removed tok hd with h | h | h | h | h
      · rw [List.filterMap_cons_none h]
        exact ih htl
      all_goals
        rw [List.filterMap_cons_some h, List.filter_cons_of_neg (by decide)]
        exact ih htl
    | some v =>
      have hc : removed.contains v = true :=
        hall v (by rw [List.filterMap_cons_some hd]; simp)
      rw [List.filterMap_cons_none (procTok_digit_none hd hc)]
      exact ih htl

theorem shape_of_all_removed {removed : List Nat} {toks : List (List Char)}
    (hall : ∀ v ∈ toks.filterMap digitValOf, removed.contains v = true) :
    ∀ t ∈ toks.filterMap (procTok removed), logicTokShape t := by
  intro t ht
  obtain ⟨tok, htok, hp⟩ := List.mem_filterMap.mp ht
  cases hd : digitValOf tok with
  | none =>
    rcases @procTok_nondigit removed tok hd with h | h | h | h | h <;> rw [h] at hp
    · exact absurd hp (by simp)
    all_goals
      exact Or.inl (by
        have hx := Option.some.inj hp
        simp [← hx])
  | some v =>
    have hc : removed.contains v = true := hall v (List.mem_filterMap.mpr ⟨tok, htok, hd⟩)
    rw [procTok_digit_none hd hc] at hp
    exact absurd hp (by simp)

theorem updateLogicCore_all_removed (toks : List (List Char)) (removed : List Nat)
    (hall : ∀ v ∈ toks.filterMap digitValOf, v ∈ removed) :
    digitRuns (updateLogicCore toks removed) = [] := by
  have hcont : ∀ v ∈ toks.filterMap digitValOf, removed.contains v = true := by
    intro v hv
    simpa using hall v hv
  have hdigC : (collapseOps none (toks.filterMap (procTok removed))).filter isDigitStr = [] := by
    rw [collapseOps_filter_digit]
    exact filterMap_procTok_no_digits hcont
  have hshape : ∀ t ∈ collapseOps none (toks.filterMap (procTok removed)), logicTokShape t :=
    fun t ht => shape_of_all_removed hcont t (collapseOps_sub _ _ t ht)
  rcases updateLogicCore_eq toks removed with h | ⟨humem, _⟩
  · rw [h, digitRuns, digitRuns_assemble _ hshape]
    exact hdigC
  · rw [hdigC] at humem
    exact absurd humem (by simp)

theorem updateLogicCore_single (toks : List (List Char)) (removed : List Nat) (n : Nat)
    (hsub : ∀ r ∈ removed, r ∈ Finset.Icc 1 n) (h2 : removed.Nodup)
    (hvals : (toks.filterMap digitValOf).toFinset = Finset.Icc 1 n)
    (hone : n - removed.length = 1) :
    updateLogicCore toks removed = ['1'] := by
  have h1 : ∀ r ∈ removed, 1 ≤ r := by
    intro r hr
    have hx := hsub r hr
    rw [Finset.mem_Icc] at hx
    exact hx.1
  have himg := surv_image toks removed n hsub h2 hvals
  rw [hone] at himg
  have hall : ∀ x ∈ (collapseOps none (toks.filterMap (procTok removed))).filter isDigitStr,
      x = ['1'] := by
    intro x hx
    rw [collapsed_digits_eq toks removed h1 h2] at hx
    obtain ⟨v, hv, hfx⟩ := List.mem_map.mp hx
    have hvi : v - (removed.filter (fun r => r < v)).length ∈
        Finset.image (fun v => v - (removed.filter (fun r => r < v)).length)
          (((toks.filterMap digitValOf).filter (fun v => !(removed.contains v))).toFinset) :=
      Finset.mem_image_of_mem _ (List.mem_toFinset.mpr hv)
    rw [himg] at hvi
    have hv1 : v - (removed.filter (fun r => r < v)).length = 1 := by
      rw [Finset.mem_Icc] at hvi
      omega
    rw [← hfx, hv1]
    rfl
  have hne : (collapseOps none (toks.filterMap (procTok removed))).filter isDigitStr ≠ [] := by
    intro hnil
    have h1mem : (1 : Nat) ∈ Finset.Icc 1 1 := by decide
    rw [← himg] at h1mem
    obtain ⟨v, hvmem, _⟩ := Finset.mem_image.mp h1mem
    have hvl := List.mem_toFinset.mp hvmem
    have hmap0 : (((toks.filterMap digitValOf).filter (fun v => !(removed.contains v))).map
        (fun v => natToDigits (v - (removed.filter (fun r => r < v)).length))) = [] := by
      rw [← collapsed_digits_eq toks removed h1 h2]
      exact hnil
    have hsrc : ((toks.filterMap digitValOf).filter (fun v => !(removed.contains v))) = [] :=
      List.map_eq_nil_iff.mp hmap0
    rw [hsrc] at hvl
    simp at hvl
  have hded : dedupFirst ((collapseOps none (toks.filterMap (procTok removed))).filter
      isDigitStr) = [['1']] := dedupFirst_const hall hne
  apply updateLogicCore_of_unique toks removed
  rw [hded]
  rfl

/-! ## Claim theorems for the logic rewriter (C3, C6, C7, C10) -/

/-- Claim C3: for every logic string whose integer tokens reference exactly the
positions 1..n and every duplicate-free set of removed positions drawn from
1..n, the integers readable from the rewritten logic are exactly
1..(n - number removed): removed positions are dropped and every survivor p is
decremented by the count of removed positions below p, leaving a contiguous
gap-free range. -/
theorem C3_logic_renumber_contiguous (s : String) (removed : List Nat) (n : Nat)
    (hvals : (logicDigitVals s.data).toFinset = Finset.Icc 1 n)
    (h2 : removed.Nodup) (hsub : ∀ r ∈ removed, r ∈ Finset.Icc 1 n) :
    ((digitRuns (update_logic s removed).data).map natOfDigits).toFinset
      = Finset.Icc 1 (n - removed.length) := by
  rw [update_logic_data]
  exact updateLogicCore_digit_vals (logicSplit s.data) removed n hsub h2 hvals

/-- Witness for C3 at the concrete input `"1 AND (2 OR 3)"` with position 2
removed: the output references exactly the positions 1..2. -/
theorem C3_logic_renumber_contiguous_witness :
    (logicDigitVals ("1 AND (2 OR 3)" : String).data).toFinset = Finset.Icc 1 3
    ∧ List.Nodup ([2] : List Nat)
    ∧ (∀ r ∈ ([2] : List Nat), r ∈ Finset.Icc 1 3)
    ∧ ((digitRuns (update_logic "1 AND (2 OR 3)" [2]).data).map natOfDigits).toFinset
        = Finset.Icc 1 2 :=
  ⟨by decide, by decide, by decide,
    C3_logic_renumber_contiguous "1 AND (2 OR 3)" [2] 3 (by decide) (by decide) (by decide)⟩

/-- Claim C6 counterexample: removing every referenced position does not give
the empty string — the operator and parenthesis residue survives, so
`update_logic "(1 AND 2)" [1, 2]` is `"(AND)"`, not `""`. -/
theorem C6_logic_all_removed_counterexample :
    update_logic "(1 AND 2)" [1, 2] = "(AND)" ∧ update_logic "(1 AND 2)" [1, 2] ≠ "" := by
  decide

/-- Claim C6 (amended): the logic rewrite maps the empty string to the empty
string, and when every integer token's position is removed the result contains
no digits at all (but may retain operator or parenthesis residue rather than
being empty). -/
theorem C6_logic_all_removed_amended (s : String) (removed : List Nat)
    (hall : ∀ v ∈ logicDigitVals s.data, v ∈ removed) :
    update_logic "" removed = "" ∧ digitRuns (update_logic s removed).data = [] := by
  constructor
  · rw [update_logic, if_pos rfl]
  · rw [update_logic_data]
    exact updateLogicCore_all_removed (logicSplit s.data) removed hall

/-- Witness for the amended C6 at `"(1 AND 2)"` with both positions removed. -/
theorem C6_logic_all_removed_amended_witness :
    (∀ v ∈ logicDigitVals ("(1 AND 2)" : String).data, v ∈ ([1, 2] : List Nat))
    ∧ (update_logic "" [1, 2] = ""
      ∧ digitRuns (update_logic "(1 AND 2)" [1, 2]).data = []) :=
  ⟨by decide, C6_logic_all_removed_amended "(1 AND 2)" [1, 2] (by decide)⟩

/-- Claim C7: when the logic string references exactly positions 1..n and the
removal set leaves exactly one surviving filter, the rewritten logic is the
bare string "1", regardless of the pre-removal operators and parentheses. -/
theorem C7_single_survivor_collapse (s : String) (removed : List Nat) (n : Nat)
    (hvals : (logicDigitVals s.data).toFinset = Finset.Icc 1 n)
    (h2 : removed.Nodup) (hsub : ∀ r ∈ removed, r ∈ Finset.Icc 1 n)
    (hone : n - removed.length = 1) :
    update_logic s removed = "1" := by
  have hs : s ≠ "" := by
    intro h
    rw [h] at hvals
    have h0 : (logicDigitVals ("" : String).data).toFinset = (∅ : Finset Nat) := by decide
    rw [h0] at hvals
    have h1m : (1 : Nat) ∈ Finset.Icc 1 n := by
      rw [Finset.mem_Icc]
      omega
    rw [← hvals] at h1m
    exact absurd h1m (Finset.not_mem_empty 1)
  rw [update_logic, if_neg hs, updateLogicCore_single (logicSplit s.data) removed n hsub h2
    hvals hone]

/-- Witness for C7 at `"(1 AND 2) OR 3"` with positions 1 and 3 removed:
exactly one filter survives and the whole logic collapses to "1". -/
theorem C7_single_survivor_collapse_witness :
    (logicDigitVals ("(1 AND 2) OR 3" : String).data).toFinset = Finset.Icc 1 3
    ∧ List.Nodup ([1, 3] : List Nat)
    ∧ (∀ r ∈ ([1, 3] : List Nat), r ∈ Finset.Icc 1 3)
    ∧ 3 - ([1, 3] : List Nat).length = 1
    ∧ update_logic "(1 AND 2) OR 3" [1, 3] = "1" :=
  ⟨by decide, by decide, by decide, by decide,
    C7_single_survivor_collapse "(1 AND 2) OR 3" [1, 3] 3 (by decide) (by decide) (by decide)
      (by decide)⟩

/-- Claim C10 counterexample: a lowercase `and` in the input is not "silently
deleted" as a non-alphabet sequence — it is upper-cased and kept, so with
nothing removed the output is "1 AND 2" rather than "1 2". -/
theorem C10_alphabet_counterexample :
    update_logic "1 and 2" [] = "1 AND 2" ∧ update_logic "1 and 2" [] ≠ "1 2" := by
  decide

/-- Claim C10 (amended): for 1-based duplicate-free removal sets, every
character of the rewritten logic belongs to the mini-language alphabet
(digits, the letters of AND/OR, parentheses, space), and every maximal
word-character run is AND, OR, or a canonical decimal integer; other input
material is deleted or upper-cased, never copied through verbatim. -/
theorem C10_alphabet_amended (s : String) (removed : List Nat)
    (h1 : ∀ r ∈ removed, 1 ≤ r) (h2 : removed.Nodup) :
    (∀ c ∈ (update_logic s removed).data, c ∈ logicAlphaChars)
    ∧ ∀ u ∈ wordRuns (update_logic s removed).data,
        u = ['A', 'N', 'D'] ∨ u = ['O', 'R'] ∨ ∃ v : Nat, u = natToDigits v := by
  rw [update_logic_data]
  exact updateLogicCore_alpha (logicSplit s.data) removed h1 h2

/-- Witness for the amended C10 at `"1 and (2 or 3)"` with position 2
removed. -/
theorem C10_alphabet_amended_witness :
    (∀ r ∈ ([2] : List Nat), 1 ≤ r) ∧ List.Nodup ([2] : List Nat)
    ∧ ((∀ c ∈ (update_logic "1 and (2 or 3)" [2]).data, c ∈ logicAlphaChars)
      ∧ ∀ u ∈ wordRuns (update_logic "1 and (2 or 3)" [2]).data,
          u = ['A', 'N', 'D'] ∨ u = ['O', 'R'] ∨ ∃ v : Nat, u = natToDigits v) :=
  ⟨by decide, by decide, C10_alphabet_amended "1 and (2 or 3)" [2] (by decide) (by decide)⟩

/-! ## Claim theorems for the batch engine (C1, C4, C5, C9) -/

/-- Claim C9: the batch operation's backup consists of exactly the selected
rows taken from the input collection before any mutation, and the input
collection itself is unchanged after the call (the loop mutates a copy). -/
theorem C9_backup_before_mutation (df_orig : Nat → Row) (selected_indices : List Nat)
    (instr : RemovalInstr) (swap_map_cmd : List (String × String))
    (add_list_cmd : List String) :
    (modify_trackers df_orig selected_indices instr swap_map_cmd add_list_cmd).backupRows
        = selected_indices.map df_orig
    ∧ (modify_trackers df_orig selected_indices instr swap_map_cmd add_list_cmd).dfOrigAfter
        = df_orig := by
  constructor <;> rfl

/-- Claim C4: when the swap's new reference already exists in the row
(structurally in the parsed filters or textually in the fields column),
the swap degrades to removing the old reference: processing the row with
the swap equals processing it with `Remove {old}` and no swap. -/
theorem C4_swap_degrade (row : Row) (old_api new_api : String) (addList : List String)
    (hnew : newFieldExistsInRow row new_api = true) :
    processRow row [] [(old_api, new_api)] addList
      = processRow row [old_api] [] addList := by
  have heff : effectiveLists row [] [(old_api, new_api)] = ([old_api], []) := by
    rw [effectiveLists]
    simp [hnew]
  have heff2 : effectiveLists row [old_api] [] = ([old_api], []) := rfl
  simp only [processRow, heff, heff2]

/-- Witness for C4 at a concrete row whose fields column already contains
the swap target `B__c`. -/
theorem C4_swap_degrade_witness :
    newFieldExistsInRow ⟨"t", "Obj", "A__c, B__c",
        .oklist [.dictItem ⟨"A__c", some "L", some "S"⟩], "1",
        "SELECT A__c, B__c FROM Obj WHERE A__c = 1", "x=1", "A__c=ASC", "A__c=100", "A__c:L"⟩
      "B__c" = true
    ∧ processRow ⟨"t", "Obj", "A__c, B__c",
        .oklist [.dictItem ⟨"A__c", some "L", some "S"⟩], "1",
        "SELECT A__c, B__c FROM Obj WHERE A__c = 1", "x=1", "A__c=ASC", "A__c=100", "A__c:L"⟩
        [] [("A__c", "B__c")] []
      = processRow ⟨"t", "Obj", "A__c, B__c",
        .oklist [.dictItem ⟨"A__c", some "L", some "S"⟩], "1",
        "SELECT A__c, B__c FROM Obj WHERE A__c = 1", "x=1", "A__c=ASC", "A__c=100", "A__c:L"⟩
        ["A__c"] [] [] :=
  ⟨by decide,
    C4_swap_degrade ⟨"t", "Obj", "A__c, B__c",
        .oklist [.dictItem ⟨"A__c", some "L", some "S"⟩], "1",
        "SELECT A__c, B__c FROM Obj WHERE A__c = 1", "x=1", "A__c=ASC", "A__c=100", "A__c:L"⟩
      "A__c" "B__c" [] (by decide)⟩

/-- Claim C5 (code bug): for a row whose raw filters string is not valid
JSON, the swap leaves the raw filters string byte-for-byte unchanged even
though the swap is applied to the other columns; the textual fallback the
spec describes (substituting old by new in the raw string) would have
produced a different string. -/
theorem C5_no_textual_fallback :
    (processRow ⟨"t", "Obj", "A_old__c, K__c", .bad "not json A_old__c", "", "", "", "", "", ""⟩
        [] [("A_old__c", "A_new__c")] []).filters = FiltersCol.bad "not json A_old__c"
    ∧ (processRow ⟨"t", "Obj", "A_old__c, K__c", .bad "not json A_old__c", "",
        "", "", "", "", ""⟩ [] [("A_old__c", "A_new__c")] []).fields = "A_new__c, K__c"
    ∧ swap_field_in_text "not json A_old__c" "A_old__c" "A_new__c" = "not json A_new__c"
    ∧ FiltersCol.bad "not json A_old__c" ≠ FiltersCol.bad "not json A_new__c" :=
  ⟨by decide, by decide, by decide, by decide⟩

/-- Claim C1 (code bug): with removal references `Rel__r.C__c` and `B__c`,
only the first reference is stripped from the fields column (`B__c`, itself
in the removal set, survives), the resize map keeps the canonical key
`C__c` that the spec requires stripped, and the rewritten query still
word-contains the removed reference `B__c` in its ORDER BY tail. -/
theorem C1_orphan_references :
    (processRow ⟨"t", "", "Rel__r.C__c, B__c", .oklist [], "",
        "SELECT Z FROM T WHERE Z = 1 ORDER BY B__c", "", "", "C__c=5", ""⟩
      ["Rel__r.C__c", "B__c"] [] []).fields = "B__c"
    ∧ (processRow ⟨"t", "", "Rel__r.C__c, B__c", .oklist [], "",
        "SELECT Z FROM T WHERE Z = 1 ORDER BY B__c", "", "", "C__c=5", ""⟩
      ["Rel__r.C__c", "B__c"] [] []).resizeMap = "C__c=5"
    ∧ wbOccurs ("B__c" : String).data
        ((processRow ⟨"t", "", "Rel__r.C__c, B__c", .oklist [], "",
          "SELECT Z FROM T WHERE Z = 1 ORDER BY B__c", "", "", "C__c=5", ""⟩
        ["Rel__r.C__c", "B__c"] [] []).query).data = true :=
  ⟨by decide, by decide, by decide⟩

/-! ## The WHERE-condition rewrite of `update_query`: parenthesis balance -/

theorem mem_wsCollapseAux {x : Char} :
    ∀ (b : Bool) (cs : List Char), x ∈ wsCollapseAux b cs → x = ' ' ∨ x ∈ cs := by
  intro b cs
  induction cs generalizing b with
  | nil => intro h; simp [wsCollapseAux] at h
  | cons c cs ih =>
    intro h
    rw [wsCollapseAux] at h
    by_cases hw : isWs c = true
    · rw [if_pos hw] at h
      by_cases hb : b = true
      · rw [if_pos hb] at h
        rcases ih true h with h1 | h1
        · exact Or.inl h1
        · exact Or.inr (by simp [h1])
      · rw [if_neg hb] at h
        rcases List.mem_cons.mp h with h1 | h1
        · exact Or.inl h1
        · rcases ih true h1 with h2 | h2
          · exact Or.inl h2
          · exact Or.inr (by simp [h2])
    · rw [if_neg hw] at h
      rcases List.mem_cons.mp h with h1 | h1
      · exact Or.inr (by simp [h1])
      · rcases ih false h1 with h2 | h2
        · exact Or.inl h2
        · exact Or.inr (by simp [h2])

theorem mem_splitBoolOpsAux {x : Char} :
    ∀ (fuel : Nat) (prev : Option Char) (cur cs part : List Char),
    part ∈ splitBoolOpsAux fuel prev cur cs → x ∈ part → x ∈ cur ∨ x ∈ cs := by
  intro fuel
  induction fuel with
  | zero =>
    intro prev cur cs part hpart hx
    cases cs with
    | nil =>
      simp only [splitBoolOpsAux] at hpart
      have he : part = cur.reverse := by simpa using hpart
      rw [he] at hx
      exact Or.inl (List.mem_reverse.mp hx)
    | cons c rest =>
      simp only [splitBoolOpsAux] at hpart
      have he : part = cur.reverse ++ c :: rest := by simpa using hpart
      rw [he] at hx
      rcases List.mem_append.mp hx with h | h
      · exact Or.inl (List.mem_reverse.mp h)
      · exact Or.inr h
  | succ f ih =>
    intro prev cur cs part hpart hx
    cases cs with
    | nil =>
      simp only [splitBoolOpsAux] at hpart
      have he : part = cur.reverse := by simpa using hpart
      rw [he] at hx
      exact Or.inl (List.mem_reverse.mp hx)
    | cons c rest =>
      simp only [splitBoolOpsAux] at hpart
      split at hpart
      · rcases List.mem_cons.mp hpart with h | h
        · rw [h] at hx
          exact Or.inl (List.mem_reverse.mp hx)
        · rcases List.mem_cons.mp h with h2 | h2
          · rw [h2] at hx
            rcases List.mem_cons.mp hx with h3 | h3
            · exact Or.inr (by simp [h3])
            · exact Or.inr (List.mem_cons_of_mem _ (List.take_subset _ _ h3))
          · rcases ih _ _ _ part h2 hx with h3 | h3
            · simp at h3
            · exact Or.inr (List.mem_cons_of_mem _ (List.drop_subset _ _ h3))
      · split at hpart
        · rcases List.mem_cons.mp hpart with h | h
          · rw [h] at hx
            exact Or.inl (List.mem_reverse.mp hx)
          · rcases List.mem_cons.mp h with h2 | h2
            · rw [h2] at hx
              rcases List.mem_cons.mp hx with h3 | h3
              · exact Or.inr (by simp [h3])
              · exact Or.inr (List.mem_cons_of_mem _ (List.take_subset _ _ h3))
            · rcases ih _ _ _ part h2 hx with h3 | h3
              · simp at h3
              · exact Or.inr (List.mem_cons_of_mem _ (List.drop_subset _ _ h3))
        · rcases ih _ _ _ part hpart hx with h3 | h3
          · rcases List.mem_cons.mp h3 with h4 | h4
            · exact Or.inr (by simp [h4])
            · exact Or.inl h4
          · exact Or.inr (List.mem_cons_of_mem _ h3)

theorem mem_splitBoolOps {x : Char} {cs part : List Char}
    (hpart : part ∈ splitBoolOps cs) (hx : x ∈ part) : x ∈ cs := by
  rcases mem_splitBoolOpsAux (cs.length + 1) none [] cs part hpart hx with h | h
  · simp at h
  · exact h

theorem mem_stripTrailOpQuery {x : Char} {cs : List Char}
    (h : x ∈ stripTrailOpQuery cs) : x ∈ cs := by
  have hgen : ∀ k : Nat,
      x ∈ (((cs.reverse.dropWhile isWs).drop k).dropWhile isWs).reverse → x ∈ cs := by
    intro k hk
    rw [List.mem_reverse] at hk
    have h1 := List.dropWhile_subset _ hk
    have h2 := List.drop_subset _ _ h1
    have h3 := List.dropWhile_subset _ h2
    exact List.mem_reverse.mp h3
  simp only [stripTrailOpQuery] at h
  split at h
  · split at h
    · exact hgen 3 h
    · exact h
  · split at h
    · split at h
      · exact hgen 2 h
      · exact h
    · exact h

theorem isOpU_chars {t : List Char} (h : isOpU t = true) :
    t.map Char.toUpper = ['A', 'N', 'D'] ∨ t.map Char.toUpper = ['O', 'R'] := by
  rw [isOpU, Bool.or_eq_true] at h
  rcases h with h | h
  · exact Or.inl (by simpa using h)
  · exact Or.inr (by simpa using h)

theorem condAccStep_mem {ctx : List (List Char)} {acc : List (List Char)} {part e : List Char}
    (he : e ∈ condAccStep ctx acc part) :
    e ∈ acc ∨ (isOpU (pyStripL part) = true ∧ e = (pyStripL part).map Char.toUpper)
      ∨ e = pyStripL part := by
  simp only [condAccStep] at he
  split at he
  · rename_i hop
    split at he
    · split at he
      · exact Or.inl he
      · rcases List.mem_append.mp he with h | h
        · exact Or.inl h
        · exact Or.inr (Or.inl ⟨hop, by simpa using h⟩)
    · exact Or.inl he
  · split at he
    · split at he
      · split at he
        · exact Or.inl (List.dropLast_subset _ he)
        · exact Or.inl he
      · exact Or.inl he
    · rcases List.mem_append.mp he with h | h
      · exact Or.inl h
      · exact Or.inr (Or.inr (by simpa using h))

theorem condAcc_noParen (ctx : List (List Char)) :
    ∀ (parts : List (List Char)) (acc : List (List Char)),
    (∀ part ∈ parts, ∀ c ∈ part, c ≠ '(' ∧ c ≠ ')') →
    (∀ e ∈ acc, ∀ c ∈ e, c ≠ '(' ∧ c ≠ ')') →
    ∀ e ∈ parts.foldl (condAccStep ctx) acc, ∀ c ∈ e, c ≠ '(' ∧ c ≠ ')' := by
  intro parts
  induction parts with
  | nil =>
    intro acc _ hacc
    simpa using hacc
  | cons p parts ih =>
    intro acc hparts hacc
    rw [List.foldl_cons]
    refine ih _ (fun part hp => hparts part (List.mem_cons_of_mem _ hp)) ?_
    intro e he c hc
    rcases condAccStep_mem he with h | ⟨hopt, hop⟩ | h
    · exact hacc e h c hc
    · rcases isOpU_chars hopt with hAND | hOR
      · rw [hop, hAND] at hc
        simp at hc
        rcases hc with rfl | rfl | rfl <;> exact ⟨by decide, by decide⟩
      · rw [hop, hOR] at hc
        simp at hc
        rcases hc with rfl | rfl <;> exact ⟨by decide, by decide⟩
    · rw [h] at hc
      exact hparts p (by simp) c (mem_pyStripL hc)

theorem popTrailOp_subset {acc : List (List Char)} : ∀ e ∈ popTrailOp acc, e ∈ acc := by
  intro e he
  simp only [popTrailOp] at he
  split at he
  · split at he
    · exact List.dropLast_subset _ he
    · exact he
  · exact he

theorem countCh_cons (c d : Char) (cs : List Char) :
    countCh c (d :: cs) = (if d == c then 1 else 0) + countCh c cs := by
  rw [countCh, countCh, List.filter_cons]
  by_cases hd : (d == c) = true
  · simp [hd]
    omega
  · simp [hd]

theorem countCh_append (c : Char) (a b : List Char) :
    countCh c (a ++ b) = countCh c a + countCh c b := by
  rw [countCh, countCh, countCh, List.filter_append, List.length_append]

theorem countCh_eq_zero {c : Char} {cs : List Char} (h : ∀ x ∈ cs, x ≠ c) :
    countCh c cs = 0 := by
  rw [countCh, List.length_eq_zero, List.filter_eq_nil_iff]
  intro a ha
  simp [h a ha]

theorem countCh_wrap {s2 : List Char} (h1 : countCh '(' s2 = 0) (h2 : countCh ')' s2 = 0) :
    countCh '(' ('(' :: s2 ++ [')']) = countCh ')' ('(' :: s2 ++ [')']) := by
  rw [List.cons_append, countCh_cons, countCh_cons, countCh_append, countCh_append, h1, h2]
  decide

theorem cond_s2_noParen {cond : List Char} {ctx : List (List Char)}
    (hpf : ∀ c ∈ cond, c ≠ '(' ∧ c ≠ ')') :
    ∀ c ∈ stripTrailOpQuery (stripLeadOpLogic (pyStripL (wsCollapse (interSpace
        (popTrailOp ((splitBoolOps cond).foldl (condAccStep ctx) [])))))),
      c ≠ '(' ∧ c ≠ ')' := by
  intro c hc
  have h1 := mem_stripTrailOpQuery hc
  have h2 := mem_stripLeadOpLogic h1
  have h3 := mem_pyStripL h2
  rcases mem_wsCollapseAux false _ h3 with h4 | h4
  · rw [h4]; exact ⟨by decide, by decide⟩
  · rcases mem_interSpace _ h4 with h5 | ⟨t, ht, hct⟩
    · rw [h5]; exact ⟨by decide, by decide⟩
    · have ht2 := popTrailOp_subset t ht
      have hfold := condAcc_noParen ctx (splitBoolOps cond) []
        (fun part hp c2 hc2 => hpf c2 (mem_splitBoolOps hp hc2))
        (by simp)
      exact hfold t ht2 c hct

theorem condFinal_out {cond : List Char} {ctx : List (List Char)} {s : List Char}
    (h : condFinal cond ctx = some s) :
    s.head? = some '(' ∧ s.getLast? = some ')'
    ∧ ((∀ c ∈ cond, c ≠ '(' ∧ c ≠ ')') → countCh '(' s = countCh ')' s) := by
  simp only [condFinal] at h
  split at h
  · exact absurd h (by simp)
  · split at h
    · exact absurd h (by simp)
    · split at h
      · rename_i hc
        have hs := Option.some.inj h
        subst hs
        exact ⟨hc.1, hc.2.1, fun _ => hc.2.2⟩
      · have hs := Option.some.inj h
        subst hs
        refine ⟨rfl, ?_, ?_⟩
        · rw [List.getLast?_append_of_ne_nil _ (by simp)]
          rfl
        · intro hpf
          have hnp2 := @cond_s2_noParen cond ctx hpf
          exact countCh_wrap (countCh_eq_zero (fun x hx => (hnp2 x hx).1))
            (countCh_eq_zero (fun x hx => (hnp2 x hx).2))

theorem startsWithBoolOp_paren {s : List Char} (h : s.head? = some '(') :
    startsWithBoolOp s = false := by
  cases s with
  | nil => simp at h
  | cons a s2 =>
    have ha : a = '(' := by simpa using h
    subst ha
    have hdw : List.dropWhile isWs ('(' :: s2) = '(' :: s2 := by
      rw [List.dropWhile_cons_of_neg (by decide)]
    have h3 : ((('(' :: s2).take 3).map Char.toUpper) ≠ ['A', 'N', 'D'] := by
      rw [List.take_succ_cons, List.map_cons]
      intro hx
      rw [List.cons.injEq] at hx
      exact absurd hx.1 (by decide)
    have h2 : ((('(' :: s2).take 2).map Char.toUpper) ≠ ['O', 'R'] := by
      rw [List.take_succ_cons, List.map_cons]
      intro hx
      rw [List.cons.injEq] at hx
      exact absurd hx.1 (by decide)
    simp only [startsWithBoolOp, hdw]
    rw [Bool.or_eq_false_iff]
    constructor
    · rw [decide_eq_false_iff_not]
      intro hx
      exact h3 hx.1
    · rw [decide_eq_false_iff_not]
      intro hx
      exact h2 hx.1

theorem endsWithBoolOp_paren {s : List Char} (h : s.getLast? = some ')') :
    endsWithBoolOp s = false := by
  have hrev : s.reverse.head? = some ')' := by
    rw [← List.reverse_reverse s] at h
    rw [getLast?_reverse_eq_head? s.reverse] at h
    exact h
  rcases hr : s.reverse with _ | ⟨a, r2⟩
  · rw [hr] at hrev
    simp at hrev
  · rw [hr] at hrev
    have ha : a = ')' := by simpa using hrev
    subst ha
    have hdw : List.dropWhile isWs (')' :: r2) = ')' :: r2 := by
      rw [List.dropWhile_cons_of_neg (by decide)]
    have h3 : (((')' :: r2).take 3).map Char.toUpper) ≠ ['D', 'N', 'A'] := by
      rw [List.take_succ_cons, List.map_cons]
      intro hx
      rw [List.cons.injEq] at hx
      exact absurd hx.1 (by decide)
    have h2 : (((')' :: r2).take 2).map Char.toUpper) ≠ ['R', 'O'] := by
      rw [List.take_succ_cons, List.map_cons]
      intro hx
      rw [List.cons.injEq] at hx
      exact absurd hx.1 (by decide)
    simp only [endsWithBoolOp, hr, hdw]
    rw [Bool.or_eq_false_iff]
    constructor
    · rw [decide_eq_false_iff_not]
      intro hx
      exact h3 hx.1
    · rw [decide_eq_false_iff_not]
      intro hx
      exact h2 hx.1

/-- Claim C2 counterexample: removing `A__c` from a query whose WHERE clause
is one parenthesised group slices the group open and then re-wraps it, and
the resulting WHERE clause `(B__c = 2))` has one opening but two closing
parentheses. -/
theorem C2_query_balance_counterexample :
    update_query "SELECT A__c, B__c FROM Obj WHERE (A__c = 1 AND B__c = 2)" ["A__c"]
      = "SELECT B__c FROM Obj WHERE (B__c = 2))"
    ∧ countCh '(' ("(B__c = 2))" : String).data ≠ countCh ')' ("(B__c = 2))" : String).data :=
  ⟨by decide, by decide⟩

/-- Claim C2 (amended): for a query whose matched WHERE condition contains no
parentheses, whenever the condition rewrite survives, the rewritten query
keeps the form prefix-condition-suffix and the new WHERE condition is
parenthesis-balanced with no leading or trailing dangling AND/OR. -/
theorem C2_query_balance_amended (q : String) (rm : List String)
    (g1 cond suf s : List Char)
    (hw : whereMatch (selectRewrite q.data (rm.map String.data)) = some (g1, cond, suf))
    (hnp : ∀ c ∈ cond, c ≠ '(' ∧ c ≠ ')')
    (hs : condFinal cond (rm.map String.data) = some s) :
    update_query q rm
        = String.mk (pyStripL (pyStripL g1 ++ ' ' :: s ++ ' ' :: pyStripL suf))
    ∧ countCh '(' s = countCh ')' s
    ∧ startsWithBoolOp s = false
    ∧ endsWithBoolOp s = false := by
  obtain ⟨hh, hl, hb⟩ := condFinal_out hs
  refine ⟨?_, hb hnp, startsWithBoolOp_paren hh, endsWithBoolOp_paren hl⟩
  simp only [update_query, hw, hs]

/-- Witness for the amended C2: removing `B` from
`SELECT A FROM T WHERE A = 1 AND B = 2` keeps the balanced clause
`(A = 1)`. -/
theorem C2_query_balance_amended_witness :
    whereMatch (selectRewrite ("SELECT A FROM T WHERE A = 1 AND B = 2" : String).data
        ((["B"] : List String).map String.data))
      = some (("SELECT A FROM T WHERE " : String).data,
          ("A = 1 AND B = 2" : String).data, ([] : List Char))
    ∧ (∀ c ∈ ("A = 1 AND B = 2" : String).data, c ≠ '(' ∧ c ≠ ')')
    ∧ condFinal ("A = 1 AND B = 2" : String).data ((["B"] : List String).map String.data)
        = some ("(A = 1)" : String).data
    ∧ (update_query "SELECT A FROM T WHERE A = 1 AND B = 2" ["B"]
        = String.mk (pyStripL (pyStripL ("SELECT A FROM T WHERE " : String).data
            ++ ' ' :: ("(A = 1)" : String).data ++ ' ' :: pyStripL ([] : List Char)))
      ∧ countCh '(' ("(A = 1)" : String).data = countCh ')' ("(A = 1)" : String).data
      ∧ startsWithBoolOp ("(A = 1)" : String).data = false
      ∧ endsWithBoolOp ("(A = 1)" : String).data = false) :=
  ⟨by decide, by decide, by decide,
    C2_query_balance_amended "SELECT A FROM T WHERE A = 1 AND B = 2" ["B"]
      ("SELECT A FROM T WHERE " : String).data ("A = 1 AND B = 2" : String).data
      ([] : List Char) ("(A = 1)" : String).data (by decide) (by decide) (by decide)⟩

/-! ## The no-occurrence removal pass: what survives and what is re-normalised -/

theorem splitOnCharL_ne_nil (sep : Char) : ∀ (cs : List Char), splitOnCharL sep cs ≠ [] := by
  intro cs
  cases cs with
  | nil => simp [splitOnCharL]
  | cons c cs =>
    rw [splitOnCharL]
    by_cases hc : (c == sep) = true
    · rw [if_pos hc]
      simp
    · rw [if_neg hc]
      cases hsp : splitOnCharL sep cs with
      | nil => simp
      | cons p ps => simp

theorem joinWithL_cons_cons (sep : List Char) (p q : List Char) (qs : List (List Char)) :
    joinWithL sep (p :: q :: qs) = p ++ sep ++ joinWithL sep (q :: qs) := rfl

theorem join_split (sep : Char) : ∀ (cs : List Char),
    joinWithL [sep] (splitOnCharL sep cs) = cs := by
  intro cs
  induction cs with
  | nil => rfl
  | cons c cs ih =>
    rw [splitOnCharL]
    by_cases hc : (c == sep) = true
    · rw [if_pos hc]
      have hcs : c = sep := by simpa using hc
      cases hsp : splitOnCharL sep cs with
      | nil => exact absurd hsp (splitOnCharL_ne_nil sep cs)
      | cons p ps =>
        rw [joinWithL_cons_cons, ← hsp, ih, hcs]
        rfl
    · rw [if_neg hc]
      cases hsp : splitOnCharL sep cs with
      | nil => exact absurd hsp (splitOnCharL_ne_nil sep cs)
      | cons p ps =>
        show joinWithL [sep] ((c :: p) :: ps) = c :: cs
        rw [hsp] at ih
        cases ps with
        | nil =>
          show c :: p = c :: cs
          have hp : p = cs := ih
          rw [hp]
        | cons q qs =>
          rw [joinWithL_cons_cons]
          rw [joinWithL_cons_cons] at ih
          rw [← ih]
          simp

theorem removeFilters_keep (ctx : List String) :
    ∀ (l : List FilterItem) (pos : Nat),
    (∀ it ∈ l, ∃ f, it = .dictItem f) →
    (∀ it ∈ l, ∀ f, it = .dictItem f → filterFieldRemoved ctx f.field = false) →
    removeFilters ctx l pos = (l, []) := by
  intro l
  induction l with
  | nil => intro pos _ _; rfl
  | cons it l ih =>
    intro pos hdict hno
    obtain ⟨f, hf⟩ := hdict it (by simp)
    subst hf
    have hr := ih (pos + 1) (fun x hx => hdict x (by simp [hx]))
      (fun x hx => hno x (by simp [hx]))
    have hnoF : filterFieldRemoved ctx f.field = false := hno _ (by simp) f rfl
    simp [removeFilters, hr, hnoF]

theorem processRow_remove_only (row : Row) (rm : List String) (h : rm.isEmpty = false) :
    processRow row rm [] [] = removeApply row rm := by
  have heff : effectiveLists row rm [] = (rm, []) := rfl
  simp [processRow, heff, h]

/-- Claim C8 (amended): when no removed reference occurs anywhere in the row
(and the removal list's head is a non-blank reference, with cleanly parsed
all-dict filters), Remove keeps the parsed filters and the formatting column
exactly, passes an empty renumbering to the logic rewriter, and rewrites the
comma-list columns only by re-joining their stripped items with ", " — a
silent no-op up to these idempotent normalisations, never an error. -/
theorem C8_remove_noop_amended (row : Row) (rm : List String) (l : List FilterItem)
    (hno : noRefOccurs row rm)
    (hr0 : pyStripL ((rm.headD "") : String).data ≠ [])
    (hfl : row.filters = .oklist l)
    (hdict : ∀ it ∈ l, ∃ f, it = .dictItem f) :
    processRow row rm [] []
      = { row with
          fields := String.mk (joinWithL [',', ' '] (commaItemsL row.fields.data)),
          filters := .oklist l,
          logic := update_logic row.logic [],
          query := update_query row.query (ctxPaths row.fields rm),
          orderBy := String.mk (joinWithL [',', ' '] (commaItemsL row.orderBy.data)),
          resizeMap := String.mk (joinWithL [',', ' '] (commaItemsL row.resizeMap.data)),
          labelMap := String.mk (joinWithL [',', ' '] (commaItemsL row.labelMap.data)) } := by
  obtain ⟨h1, h2f, h3, h4, h5, h6, h7, h8⟩ := hno
  have hrm : rm ≠ [] := by
    intro h
    rw [h] at hr0
    exact hr0 rfl
  have hrmE : rm.isEmpty = false := List.isEmpty_eq_false.mpr hrm
  have hkeep : removeFilters (ctxPaths row.fields rm) l 1 = (l, []) :=
    removeFilters_keep _ l 1 hdict (h2f l hfl)
  have hguard : ¬((rm.headD "") = ""
      ∨ (pyStripL ((rm.headD "") : String).data).isEmpty = true) := by
    rintro (h | h)
    · rw [h] at hr0
      exact hr0 rfl
    · exact hr0 (List.isEmpty_iff.mp h)
  have hfields : remove_field_from_text row.fields (rm.headD "")
      = String.mk (joinWithL [',', ' '] (commaItemsL row.fields.data)) := by
    rw [remove_field_from_text, if_neg hguard,
      List.filter_eq_self.mpr (fun a ha => by simpa using h1 a ha)]
  have hfmt : String.mk (joinWithL ['\n']
        ((splitOnCharL '\n' row.formatting.data).filter
          (fun line => !fmtLineDrop (ctxPaths row.fields rm) line)))
      = row.formatting := by
    rw [List.filter_eq_self.mpr (fun a ha => by simp [h3 a ha]), join_split]
  have hkv : ∀ (s : String) (sep : Char),
      (∀ item ∈ commaItemsL s.data, kvKeep sep ((rm.headD "") : String).data item = true) →
      remove_key_value_entry s (rm.headD "") sep
        = String.mk (joinWithL [',', ' '] (commaItemsL s.data)) := by
    intro s sep hk
    rw [remove_key_value_entry]
    by_cases hs : s = ""
    · rw [if_pos (Or.inl hs)]
      subst hs
      rfl
    · have hkey : ¬(s = "" ∨ (rm.headD "") = "") := by
        rintro (h | h)
        · exact hs h
        · rw [h] at hr0
          exact hr0 rfl
      rw [if_neg hkey, List.filter_eq_self.mpr (fun a ha => hk a ha)]
  have horder := hkv row.orderBy '=' h4
  have hresize := hkv row.resizeMap '=' h5
  have hlabel := hkv row.labelMap ':' h6
  rw [processRow_remove_only row rm hrmE]
  simp only [removeApply, hfl, hkeep, hfields, hfmt, horder, hresize, hlabel]

theorem noRefOccurs_rowC8w : noRefOccurs rowC8w ["Z__c"] := by
  simp only [noRefOccurs]
  refine ⟨?_, ?_, ?_, ?_, ?_, ?_, ?_, ?_⟩
  · decide
  · intro l2 hl2 it hit f hf
    have hl : ([] : List FilterItem) = l2 := FiltersCol.oklist.inj hl2
    rw [← hl] at hit
    simp at hit
  · decide
  · decide
  · decide
  · decide
  · intro bef items sep rest hm
    exact Option.noConfusion
      ((by decide : selFromMatch (Row.query rowC8w).data = none).symm.trans hm)
  · intro g1 cond suf hm
    exact Option.noConfusion ((by decide :
      whereMatch (selectRewrite (Row.query rowC8w).data
        ((ctxPaths (Row.fields rowC8w) ["Z__c"]).map String.data)) = none).symm.trans hm)

/-- Claim C8 counterexample: a row in which no removed reference occurs is
not byte-for-byte unchanged — its fields column is re-joined with ", "
(`"A__c,B__c"` becomes `"A__c, B__c"`), so Remove is not a strict no-op. -/
theorem C8_remove_noop_counterexample :
    noRefOccurs rowC8w ["Z__c"]
    ∧ (processRow rowC8w ["Z__c"] [] []).fields = "A__c, B__c"
    ∧ (processRow rowC8w ["Z__c"] [] []).fields ≠ rowC8w.fields :=
  ⟨noRefOccurs_rowC8w, by decide, by decide⟩

/-- Witness for the amended C8 at the concrete row `rowC8w`. -/
theorem C8_remove_noop_amended_witness :
    noRefOccurs rowC8w ["Z__c"]
    ∧ pyStripL (((["Z__c"] : List String).headD "") : String).data ≠ []
    ∧ rowC8w.filters = .oklist []
    ∧ (∀ it ∈ ([] : List FilterItem), ∃ f, it = .dictItem f)
    ∧ processRow rowC8w ["Z__c"] [] []
      = { rowC8w with
          fields := String.mk (joinWithL [',', ' '] (commaItemsL rowC8w.fields.data)),
          filters := .oklist [],
          logic := update_logic rowC8w.logic [],
          query := update_query rowC8w.query (ctxPaths rowC8w.fields ["Z__c"]),
          orderBy := String.mk (joinWithL [',', ' '] (commaItemsL rowC8w.orderBy.data)),
          resizeMap := String.mk (joinWithL [',', ' '] (commaItemsL rowC8w.resizeMap.data)),
          labelMap := String.mk (joinWithL [',', ' '] (commaItemsL rowC8w.labelMap.data)) } :=
  ⟨noRefOccurs_rowC8w, by decide, rfl, by simp,
    C8_remove_noop_amended rowC8w ["Z__c"] [] noRefOccurs_rowC8w (by decide) rfl (by simp)⟩

end TrackerHacker
